import Mathlib

/-!
# go-namegen: the weighted string distribution `distr.StrDistr` and the name loop

A shallow embedding of `src/distr/distr.go` and, from `src/go-namegen.go`, of the
letter-merging loop and the count loop of `parseFlags`, the presets of `init()` and the
generation loop of `main`.

Modelling conventions.

* There are two models of the arithmetic.  In namespace `Distr` the `float64` weights are
  exact rationals (`ℚ`): this is the model of the statements made in exact arithmetic.
  In namespace `Binary64` they are IEEE 754 binary64 values, with rounding to nearest
  (ties to even), subnormal values, the infinities and NaN: this is the model of what the
  compiled program computes.
* The Go map `map[string]float64` is a finite map `Finmap` from `String` to the weights:
  keys are unique and two maps with the same bindings are equal.
* Go iterates a map in an unspecified order.  Every function that ranges over
  `d.p` takes the order of that pass as an explicit argument: a duplicate-free
  list of exactly the keys of the map (`IsOrder`).
* `rand.Float64()` is an explicit draw `u` with `0 ≤ u < 1`.
* The unbounded `for { ... }` of `Pick` is unrolled by a pass counter; the
  result `none` means that no pass has returned so far.
* In the generation loop the random source is a value `Rand`: it fixes the draw and
  the iteration order of every pass of every `Pick` call, numbered in the order in
  which the passes are run.  `log.Fatalf` ends the run with the outcome `Run.fatal`.
-/

namespace Distr

/-- The Go type `map[string]float64`. -/
abbrev WeightMap := Finmap (fun _ : String => ℚ)

/-- Reading `m[s]` from a Go map: the stored value, or the zero value when `s` is absent. -/
def index (m : WeightMap) (s : String) : ℚ :=
  (m.lookup s).getD 0

/-- The struct `StrDistr`: the weight map `p` and the running total `sum`. -/
structure StrDistr where
  p : WeightMap
  sum : ℚ
deriving DecidableEq

/-- The constructor `NewStrDistr`: an empty map; `sum` has its zero value. -/
def NewStrDistr : StrDistr :=
  { p := ∅, sum := 0 }

namespace StrDistr

/-- Method `Weight`: `return d.p[s]`. -/
def Weight (d : StrDistr) (s : String) : ℚ :=
  index d.p s

/-- Method `Sum`: `return d.sum`. -/
def Sum (d : StrDistr) : ℚ :=
  d.sum

/-- Method `Add`: `f = math.Max(f, 0); d.p[s] += f; d.sum += f`, in exact arithmetic (no
rounding, no overflow, no NaN); `Binary64.StrDistr.Add` is the float64 counterpart. -/
def Add (d : StrDistr) (s : String) (f : ℚ) : StrDistr :=
  let f := max f 0
  { p := d.p.insert s (index d.p s + f), sum := d.sum + f }

/-- Method `Remove`: `p := d.p[s]; delete(d.p, s); d.sum -= p; return p`.
The first component is the returned weight, the second the distribution afterwards. -/
def Remove (d : StrDistr) (s : String) : ℚ × StrDistr :=
  let p := index d.p s
  (p, { p := d.p.erase s, sum := d.sum - p })

/-- A list of strings is a possible iteration order of `range d.p`: it visits every key
of the map exactly once. -/
def IsOrder (d : StrDistr) (order : List String) : Prop :=
  order.Nodup ∧ order.toFinset = d.p.keys

instance (d : StrDistr) (order : List String) : Decidable (d.IsOrder order) := by
  unfold IsOrder; infer_instance

/-- Method `Strings`: `res := make([]string, len(d.p))` is a slice of `len(d.p)` empty strings, and
the loop `for s := range d.p { res = append(res, s) }` appends every key after them. -/
def Strings (d : StrDistr) (order : List String) : List String :=
  order.foldl (fun res s => res ++ [s]) (List.replicate d.p.keys.card "")

/-- One pass of the inner loop of `Pick`, `for str, p := range d.p { r -= p; if r < 0
{ return str } }`, over the keys in the given order, starting from the value `r`.
`none` means the loop ended without returning. -/
def pickPass (d : StrDistr) : List String → ℚ → Option String
  | [], _ => none
  | str :: rest, r =>
    let r := r - index d.p str
    if r < 0 then some str else pickPass d rest r

/-- The body of the outer loop of `Pick` up to the message: `r := rand.Float64() * d.sum`
for the draw `u`, then the inner loop over the keys in the given order.  The product is
exact here; `Binary64.StrDistr.pickOnce` rounds it as float64 does. -/
def pickOnce (d : StrDistr) (order : List String) (u : ℚ) : Option String :=
  pickPass d order (u * d.sum)

/-- Method `Pick`: the outer `for { ... }`.  Pass `i` uses the draw `draws i` and ranges over the
map in the order `orders i`; when a pass ends without returning, the message is printed and
the next pass starts.  `passes` bounds the number of passes that are run; `none` means that
none of them returned.  The arithmetic is exact here; `Binary64.StrDistr.Pick` is the
float64 counterpart, where `r` can be an infinity or NaN. -/
def Pick (d : StrDistr) (orders : ℕ → List String) (draws : ℕ → ℚ) : ℕ → Option String
  | 0 => none
  | passes + 1 =>
    match pickOnce d (orders 0) (draws 0) with
    | some str => some str
    | none => Pick d (fun i => orders (i + 1)) (fun i => draws (i + 1)) passes

/-- The sum of the weights stored in the map, over all of its keys. -/
def storedSum (d : StrDistr) : ℚ :=
  ∑ k in d.p.keys, index d.p k

/-- The total weight of the first `j` keys of an iteration order. -/
def cumWeight (d : StrDistr) (order : List String) (j : ℕ) : ℚ :=
  ((order.take j).map (index d.p)).sum

/-- No weight stored in the map is negative. -/
def NonNeg (d : StrDistr) : Prop :=
  ∀ k ∈ d.p.keys, 0 ≤ index d.p k

/-- The sum invariant: the field `sum` is the sum of the stored weights. -/
def SumInv (d : StrDistr) : Prop :=
  d.sum = d.storedSum

instance (d : StrDistr) : Decidable d.NonNeg := by
  unfold NonNeg; infer_instance

instance (d : StrDistr) : Decidable d.SumInv := by
  unfold SumInv; infer_instance

end StrDistr

/-- The distribution of the sampling test of the specification: item `a` weighted 1 and
item `b` weighted 3. -/
def oneThree : StrDistr :=
  (NewStrDistr.Add "a" 1).Add "b" 3

/-- A distribution with a single positive-weight item `a` next to a zero-weight item `z`. -/
def singleA : StrDistr :=
  (NewStrDistr.Add "z" 0).Add "a" 2

/-- A mutating call on a `StrDistr`. -/
inductive Call where
  | add (s : String) (f : ℚ)
  | remove (s : String)
deriving DecidableEq

/-- The distribution after one call. -/
def Call.apply (d : StrDistr) : Call → StrDistr
  | .add s f => d.Add s f
  | .remove s => (d.Remove s).2

/-- The distribution after a finite sequence of calls, first call first. -/
def run (calls : List Call) (d : StrDistr) : StrDistr :=
  calls.foldl Call.apply d

/-- A distribution that the package can build: `NewStrDistr()` followed by finitely many
`Add` and `Remove` calls. -/
def Reachable (d : StrDistr) : Prop :=
  ∃ calls : List Call, run calls NewStrDistr = d

/-- A finite sequence of `Add(s, f)` calls, first call first. -/
def addAll (calls : List (String × ℚ)) (d : StrDistr) : StrDistr :=
  calls.foldl (fun d c => d.Add c.1 c.2) d

/-- The inner loop of the letter merge in `parseFlags`, run on the result `strs` of
`d.Strings()`: `for _, s := range strs { letters.Add(s, d.Weight(s)) }`. -/
def addFrom (d : StrDistr) (strs : List String) (letters : StrDistr) : StrDistr :=
  strs.foldl (fun l s => l.Add s (d.Weight s)) letters

/-- The letter merge of `parseFlags`: `letters = NewStrDistr()`, then
`for _, d := range {vowels, consonants} { for _, s := range d.Strings() {
letters.Add(s, d.Weight(s)) } }`.
`ov` and `oc` are the iteration orders of the two `Strings()` calls.  The sums are exact
here; `Binary64.mergeLetters` accumulates them in float64. -/
def mergeLetters (vowels consonants : StrDistr) (ov oc : List String) : StrDistr :=
  [(vowels, ov), (consonants, oc)].foldl
    (fun letters x => addFrom x.1 (x.1.Strings x.2) letters) NewStrDistr

/-- The vowels of the specification's merge example: `a` weighted 2. -/
def vowelsA : StrDistr :=
  NewStrDistr.Add "a" 2

/-- The consonants of the specification's merge example: `b` weighted 3. -/
def consonantsB : StrDistr :=
  NewStrDistr.Add "b" 3

/-! ### The methods as state transformers

The methods have the pointer receiver `d *StrDistr`.  Below, every body is written
statement by statement as a computation on the state `*d`: a read of `d.p` or `d.sum` is a
`get`, an assignment to `d.p`, to an entry of it or to `d.sum` is a `modify`, and locals
(`f`, `p`, `res`, `r`) are ordinary values.  The result of running a body is the returned
value paired with the receiver afterwards. -/

/-- Body of `Add`: `f = math.Max(f, 0); d.p[s] += f; d.sum += f`. -/
def AddM (s : String) (f : ℚ) : StateM StrDistr Unit := do
  let f := max f 0
  modify fun d => { d with p := d.p.insert s (index d.p s + f) }
  modify fun d => { d with sum := d.sum + f }

/-- Body of `Remove`: `p := d.p[s]; delete(d.p, s); d.sum -= p; return p`. -/
def RemoveM (s : String) : StateM StrDistr ℚ := do
  let p := index (← get).p s
  modify fun d => { d with p := d.p.erase s }
  modify fun d => { d with sum := d.sum - p }
  return p

/-- Body of `Weight`: `return d.p[s]`. -/
def WeightM (s : String) : StateM StrDistr ℚ := do
  return index (← get).p s

/-- Body of `Sum`: `return d.sum`. -/
def SumM : StateM StrDistr ℚ := do
  return (← get).sum

/-- The loop of `Strings`, `for s := range d.p { res = append(res, s) }`, over the keys in
their iteration order. -/
def appendKeysM : List String → List String → StateM StrDistr (List String)
  | [], res => pure res
  | s :: rest, res => appendKeysM rest (res ++ [s])

/-- Body of `Strings`: `res := make([]string, len(d.p))`, the loop, `return res`. -/
def StringsM (order : List String) : StateM StrDistr (List String) := do
  let res := List.replicate (← get).p.keys.card ""
  appendKeysM order res

/-- The inner loop of `Pick`: `for str, p := range d.p { r -= p; if r < 0 { return str } }`. -/
def pickPassM : List String → ℚ → StateM StrDistr (Option String)
  | [], _ => pure none
  | str :: rest, r => do
    let p := index (← get).p str
    let r := r - p
    if r < 0 then pure (some str) else pickPassM rest r

/-- One pass of the outer loop of `Pick`: `r := rand.Float64() * d.sum`, then the inner
loop. -/
def pickOnceM (order : List String) (u : ℚ) : StateM StrDistr (Option String) := do
  let r := u * (← get).sum
  pickPassM order r

/-- Body of `Pick`: the outer `for { ... }`, bounded by a number of passes. -/
def PickM (orders : ℕ → List String) (draws : ℕ → ℚ) : ℕ → StateM StrDistr (Option String)
  | 0 => pure none
  | passes + 1 => do
    match ← pickOnceM (orders 0) (draws 0) with
    | some str => pure (some str)
    | none => PickM (fun i => orders (i + 1)) (fun i => draws (i + 1)) passes

/-- The preset `uniformVowels` after `init()`: `NewStrDistr()` and the `Add` calls that
`init()` makes on it, in their order. -/
def uniformVowels : StrDistr :=
  addAll [("a", 1), ("e", 1), ("i", 1), ("o", 1), ("u", 1), ("y", 1)] NewStrDistr

/-- The preset `uniformConsonants` after `init()`. -/
def uniformConsonants : StrDistr :=
  addAll [("b", 1), ("c", 1), ("d", 1), ("f", 1), ("g", 1), ("h", 1), ("j", 1), ("k", 1),
    ("l", 1), ("m", 1), ("n", 1), ("p", 1), ("q", 1), ("r", 1), ("s", 1), ("t", 1), ("v", 1),
    ("w", 1), ("x", 1), ("z", 1)] NewStrDistr

/-- The preset `englishVowels` after `init()`. -/
def englishVowels : StrDistr :=
  addAll [("a", 8167), ("e", 12702), ("i", 6966), ("o", 7507), ("u", 2758), ("y", 1974)]
    NewStrDistr

/-- The preset `englishConsonants` after `init()`. -/
def englishConsonants : StrDistr :=
  addAll [("b", 1492), ("c", 2782), ("d", 4253), ("f", 2228), ("g", 2015), ("h", 6094),
    ("j", 153), ("k", 772), ("l", 4025), ("m", 2406), ("n", 6749), ("p", 1929), ("q", 95),
    ("r", 5987), ("s", 6327), ("t", 9056), ("v", 978), ("w", 2360), ("x", 150), ("z", 74)]
    NewStrDistr

/-- The 26 one-letter strings `a` .. `z`. -/
def lowercase : Finset String :=
  ((List.range 26).map (fun i => String.singleton (Char.ofNat (97 + i)))).toFinset

/-! ### The generation loop of `main` -/

/-- The Go type `map[string]int` of `strIntCache`. -/
abbrev IntCache := Finmap (fun _ : String => ℤ)

/-- Reading `strIntCache[s]`: the stored integer, or 0 when `s` is absent. -/
def intIndex (m : IntCache) (s : String) : ℤ :=
  (m.lookup s).getD 0

/-- The package-level variables that `parseFlags` sets and the generation loop reads. -/
structure Config where
  distrVowels : StrDistr
  distrConsonants : StrDistr
  distrLetters : StrDistr
  distrSyllables : StrDistr
  distrNumSyllales : StrDistr
  strIntCache : IntCache

/-- The random source of a run.  Passes of `Pick` loops are numbered in the order in which
they are run, over all `Pick` calls; pass `i` gets the value `draw i` from `rand.Float64()`
and ranges over the map of the distribution `d` it samples in the order `order i d`. -/
structure Rand where
  draw : ℕ → ℚ
  order : ℕ → StrDistr → List String

/-- A random source as Go provides it: every draw lies in `[0,1)` and every range loop
visits each key of its map exactly once. -/
def Rand.Fair (rnd : Rand) : Prop :=
  (∀ i, 0 ≤ rnd.draw i ∧ rnd.draw i < 1) ∧ ∀ i d, StrDistr.IsOrder d (rnd.order i d)

/-- A call `d.Pick()` inside a run, when `n` passes have been run before it: the picked
string and the pass count after the call.  `passes` bounds the passes of this call; `none`
means that none of them returned. -/
def pickAt (rnd : Rand) (d : StrDistr) : ℕ → ℕ → Option (String × ℕ)
  | 0, _ => none
  | passes + 1, n =>
    match d.pickOnce (rnd.order n d) (rnd.draw n) with
    | some str => some (str, n + 1)
    | none => pickAt rnd d passes (n + 1)

/-- The state of `main` while it builds one name. -/
inductive Run where
  /-- The loop at hand has ended: the contents of `buf` and the number of passes run. -/
  | ok (buf : String) (n : ℕ)
  /-- The call `log.Fatalf("main: unrecognized letter type %q\n", c)` has ended the program. -/
  | fatal (c : Char)
  /-- A `Pick` call has not returned within its bound of passes. -/
  | looping
deriving DecidableEq

/-- The `switch c` of `main`: the distribution selected by a shape symbol, `none` in the
`default` case. -/
def letterClass (cfg : Config) (c : Char) : Option StrDistr :=
  if c = 'v' then some cfg.distrVowels
  else if c = 'c' then some cfg.distrConsonants
  else if c = 'l' then some cfg.distrLetters
  else none

/-- The loop `for _, c := range sylType { switch c { ... }; buf.WriteString(distr.Pick()) }`
over the characters of one syllable shape. -/
def writeSyllable (cfg : Config) (rnd : Rand) (passes : ℕ) : List Char → String → ℕ → Run
  | [], buf, n => .ok buf n
  | c :: cs, buf, n =>
    match letterClass cfg c with
    | none => .fatal c
    | some d =>
      match pickAt rnd d passes n with
      | none => .looping
      | some (s, n') => writeSyllable cfg rnd passes cs (buf ++ s) n'

/-- The loop `for syl := 0; syl < numSyls; syl++ { sylType := distrSyllables.Pick(); ... }`
with `k` iterations left. -/
def writeSyllables (cfg : Config) (rnd : Rand) (passes : ℕ) : ℕ → String → ℕ → Run
  | 0, buf, n => .ok buf n
  | k + 1, buf, n =>
    match pickAt rnd cfg.distrSyllables passes n with
    | none => .looping
    | some (sylType, n') =>
      match writeSyllable cfg rnd passes sylType.data buf n' with
      | .ok buf' n'' => writeSyllables cfg rnd passes k buf' n''
      | .fatal c => .fatal c
      | .looping => .looping

/-- The body of the loop of `main` up to `buf.String()`, the raw name before
`strings.Title`: `numSyls := strIntCache[distrNumSyllales.Pick()]`, then the syllable loop,
which runs `numSyls` times when `numSyls` is positive and not at all otherwise. -/
def generate (cfg : Config) (rnd : Rand) (passes : ℕ) (n : ℕ) : Run :=
  match pickAt rnd cfg.distrNumSyllales passes n with
  | none => .looping
  | some (key, n') =>
    writeSyllables cfg rnd passes (intIndex cfg.strIntCache key).toNat "" n'

/-- The count loop of `parseFlags` over the entries of the parsed flag in their iteration
order: `distrNumSyllales.Add(s, p); val, err := strconv.Atoi(s)`, then `log.Fatalf` when
`err != nil` (the result `none`) and `strIntCache[s] = val` otherwise.  The library
function `strconv.Atoi` is the argument `atoi`. -/
def parseCounts (atoi : String → Option ℤ) :
    List (String × ℚ) → StrDistr × IntCache → Option (StrDistr × IntCache)
  | [], acc => some acc
  | (s, p) :: rest, (d, cache) =>
    match atoi s with
    | none => none
    | some val => parseCounts atoi rest (d.Add s p, cache.insert s val)

/-- A distribution from which `Pick` can sample: non-negative stored weights, the sum
invariant, and a positive total. -/
def StrDistr.Samplable (d : StrDistr) : Prop :=
  d.NonNeg ∧ d.SumInv ∧ 0 < d.sum

instance (d : StrDistr) : Decidable d.Samplable := by
  unfold StrDistr.Samplable; infer_instance

/-- The key `k` is the single positive-weight item of `d`: its weight is positive, every
other key has weight 0, and the sum invariant holds. -/
def StrDistr.Single (d : StrDistr) (k : String) : Prop :=
  d.SumInv ∧ 0 < index d.p k ∧ ∀ t ∈ d.p.keys, t ≠ k → index d.p t = 0

instance (d : StrDistr) (k : String) : Decidable (d.Single k) := by
  unfold StrDistr.Single; infer_instance

/-- A shape with each `v` replaced by the string `V` and each `c` replaced by `C`. -/
def substitute (S V C : String) : String :=
  String.join (S.data.map (fun c => if c = 'v' then V else if c = 'c' then C else
    String.singleton c))

/-- The random source that draws 0 in every pass and visits keys in increasing order. -/
def sortedRand : Rand :=
  { draw := fun _ => 0, order := fun _ d => d.p.keys.sort (· ≤ ·) }

/-- The end-to-end example of the specification: vowels `a:1`, consonants `b:1`, shapes
`cv:1`, counts `1:1`, with `letters` merged from the two letter distributions. -/
def exampleBa : Config :=
  { distrVowels := NewStrDistr.Add "a" 1
    distrConsonants := NewStrDistr.Add "b" 1
    distrLetters := mergeLetters (NewStrDistr.Add "a" 1) (NewStrDistr.Add "b" 1) ["a"] ["b"]
    distrSyllables := NewStrDistr.Add "cv" 1
    distrNumSyllales := NewStrDistr.Add "1" 1
    strIntCache := (∅ : IntCache).insert "1" 1 }

/-- The configuration of the specification's two-syllable test: vowels `a:1`, consonants
`b:1`, the single shape `cv` and the single count key `2`. -/
def exampleTwoCv : Config :=
  { distrVowels := NewStrDistr.Add "a" 1
    distrConsonants := NewStrDistr.Add "b" 1
    distrLetters := mergeLetters (NewStrDistr.Add "a" 1) (NewStrDistr.Add "b" 1) ["a"] ["b"]
    distrSyllables := NewStrDistr.Add "cv" 1
    distrNumSyllales := NewStrDistr.Add "2" 1
    strIntCache := (∅ : IntCache).insert "2" 2 }

/-- A configuration with no vowels at all, the single shape `vx` and the single count
key `1`. -/
def exampleStuck : Config :=
  { distrVowels := NewStrDistr
    distrConsonants := NewStrDistr.Add "b" 1
    distrLetters := mergeLetters NewStrDistr (NewStrDistr.Add "b" 1) [] ["b"]
    distrSyllables := NewStrDistr.Add "vx" 1
    distrNumSyllales := NewStrDistr.Add "1" 1
    strIntCache := (∅ : IntCache).insert "1" 1 }

/-- A configuration with vowels `a:1`, consonants `b:1`, the single shape `cvx` and the
single count key `1`. -/
def exampleCvx : Config :=
  { distrVowels := NewStrDistr.Add "a" 1
    distrConsonants := NewStrDistr.Add "b" 1
    distrLetters := mergeLetters (NewStrDistr.Add "a" 1) (NewStrDistr.Add "b" 1) ["a"] ["b"]
    distrSyllables := NewStrDistr.Add "cvx" 1
    distrNumSyllales := NewStrDistr.Add "1" 1
    strIntCache := (∅ : IntCache).insert "1" 1 }

/-- A configuration as `exampleBa` whose single count key is `-1`, resolving to -1. -/
def exampleMinusOne : Config :=
  { distrVowels := NewStrDistr.Add "a" 1
    distrConsonants := NewStrDistr.Add "b" 1
    distrLetters := mergeLetters (NewStrDistr.Add "a" 1) (NewStrDistr.Add "b" 1) ["a"] ["b"]
    distrSyllables := NewStrDistr.Add "cv" 1
    distrNumSyllales := NewStrDistr.Add "-1" 1
    strIntCache := (∅ : IntCache).insert "-1" (-1) }

end Distr

/-! ### The float64 model

The definitions above compute in exact arithmetic.  The ones below repeat `distr.go` and the
loops of `go-namegen.go` over IEEE 754 binary64 values, for the statements that depend on
rounding, overflow or NaN.  A finite value is given by its exact rational value; the sign of
zero is not kept, since the program only adds, subtracts, multiplies and compares.
-/

namespace Binary64

/-- A float64 value. -/
inductive F64 where
  /-- A finite value, with its exact rational value. -/
  | fin (q : ℚ)
  /-- The value `+Inf`. -/
  | posInf
  /-- The value `-Inf`. -/
  | negInf
  /-- The value `NaN`. -/
  | nan
deriving DecidableEq

/-- The rational `2 ^ e` for an integer exponent. -/
def pow2 (e : ℤ) : ℚ :=
  if 0 ≤ e then ((2 ^ e.toNat : ℕ) : ℚ) else 1 / ((2 ^ (-e).toNat : ℕ) : ℚ)

/-- The number of times `n` can be halved before it reaches 1 or 0, at most `fuel` times. -/
def halvings : ℕ → ℕ → ℕ
  | 0, _ => 0
  | fuel + 1, n => if n ≤ 1 then 0 else 1 + halvings fuel (n / 2)

/-- For `n ≥ 1`, the natural `k` with `2 ^ k ≤ n < 2 ^ (k + 1)`. -/
def log2Nat (n : ℕ) : ℕ :=
  halvings n n

/-- For `a > 0`, the integer `e` with `2 ^ e ≤ a < 2 ^ (e + 1)`: the difference of the
logarithms of numerator and denominator, or one less. -/
def log2Floor (a : ℚ) : ℤ :=
  let e : ℤ := (log2Nat a.num.natAbs : ℤ) - (log2Nat a.den : ℤ)
  if pow2 e ≤ a then e else e - 1

/-- The natural number nearest to `x ≥ 0`, the even one of the two when `x` lies halfway. -/
def nearestEven (x : ℚ) : ℕ :=
  let f := x.floor.toNat
  let r := x - f
  if r < 1 / 2 then f
  else if 1 / 2 < r then f + 1
  else if f % 2 = 0 then f else f + 1

/-- Rounding of an exact result to float64, to nearest with ties to even: the unit in the
last place is `2 ^ (e - 52)` for `2 ^ e ≤ |x| < 2 ^ (e + 1)` and never below `2 ^ -1074`
(subnormal values); a rounded magnitude of `2 ^ 1024` or more overflows to an infinity. -/
def round (x : ℚ) : F64 :=
  if x = 0 then .fin 0
  else
    let ulp := pow2 (max (log2Floor |x| - 52) (-1074))
    let y := (nearestEven (|x| / ulp) : ℚ) * ulp
    if pow2 1024 ≤ y then (if 0 < x then .posInf else .negInf)
    else .fin (if 0 < x then y else -y)

namespace F64

/-- The float64 negation `-x`. -/
def neg : F64 → F64
  | fin q => fin (-q)
  | posInf => negInf
  | negInf => posInf
  | nan => nan

/-- The float64 sum `x + y`. -/
def add : F64 → F64 → F64
  | nan, _ => nan
  | _, nan => nan
  | posInf, negInf => nan
  | negInf, posInf => nan
  | posInf, _ => posInf
  | _, posInf => posInf
  | negInf, _ => negInf
  | _, negInf => negInf
  | fin a, fin b => round (a + b)

/-- The float64 difference `x - y`. -/
def sub (x y : F64) : F64 :=
  add x (neg y)

/-- The float64 product `x * y`. -/
def mul : F64 → F64 → F64
  | nan, _ => nan
  | _, nan => nan
  | fin a, fin b => round (a * b)
  | fin a, posInf => if a = 0 then nan else if 0 < a then posInf else negInf
  | fin a, negInf => if a = 0 then nan else if 0 < a then negInf else posInf
  | posInf, fin b => if b = 0 then nan else if 0 < b then posInf else negInf
  | negInf, fin b => if b = 0 then nan else if 0 < b then negInf else posInf
  | posInf, posInf => posInf
  | negInf, negInf => posInf
  | posInf, negInf => negInf
  | negInf, posInf => negInf

/-- The library function `math.Max(x, y)`: `+Inf` if either argument is `+Inf`, else `NaN`
if either is `NaN`, else the larger one. -/
def max : F64 → F64 → F64
  | posInf, _ => posInf
  | _, posInf => posInf
  | nan, _ => nan
  | _, nan => nan
  | negInf, y => y
  | x, negInf => x
  | fin a, fin b => fin (Max.max a b)

/-- The comparison `x < 0`; false for `NaN`. -/
def ltZero : F64 → Prop
  | fin q => q < 0
  | negInf => True
  | _ => False

/-- The comparison `x ≥ 0`; false for `NaN`. -/
def geZero : F64 → Prop
  | fin q => 0 ≤ q
  | posInf => True
  | _ => False

/-- The comparison `x > 0`; false for `NaN`. -/
def gtZero : F64 → Prop
  | fin q => 0 < q
  | posInf => True
  | _ => False

instance (x : F64) : Decidable x.ltZero := by
  cases x <;> unfold ltZero <;> infer_instance

instance (x : F64) : Decidable x.geZero := by
  cases x <;> unfold geZero <;> infer_instance

instance (x : F64) : Decidable x.gtZero := by
  cases x <;> unfold gtZero <;> infer_instance

end F64

/-- The largest finite float64, `math.MaxFloat64`. -/
def maxFloat64 : ℚ :=
  (2 ^ 53 - 1) * 2 ^ 971

/-- The Go type `map[string]float64`. -/
abbrev WeightMap := Finmap (fun _ : String => F64)

/-- Reading `m[s]` from a Go map: the stored value, or the zero value when `s` is absent. -/
def index (m : WeightMap) (s : String) : F64 :=
  (m.lookup s).getD (.fin 0)

/-- The struct `StrDistr` over float64. -/
structure StrDistr where
  p : WeightMap
  sum : F64
deriving DecidableEq

/-- The constructor `NewStrDistr`: an empty map; `sum` has its zero value. -/
def NewStrDistr : StrDistr :=
  { p := ∅, sum := .fin 0 }

namespace StrDistr

/-- Method `Weight`: `return d.p[s]`. -/
def Weight (d : StrDistr) (s : String) : F64 :=
  index d.p s

/-- Method `Sum`: `return d.sum`. -/
def Sum (d : StrDistr) : F64 :=
  d.sum

/-- Method `Add`: `f = math.Max(f, 0); d.p[s] += f; d.sum += f`. -/
def Add (d : StrDistr) (s : String) (f : F64) : StrDistr :=
  let f := F64.max f (.fin 0)
  { p := d.p.insert s (F64.add (index d.p s) f), sum := F64.add d.sum f }

/-- Method `Remove`: `p := d.p[s]; delete(d.p, s); d.sum -= p; return p`. -/
def Remove (d : StrDistr) (s : String) : F64 × StrDistr :=
  let p := index d.p s
  (p, { p := d.p.erase s, sum := F64.sub d.sum p })

/-- A possible iteration order of `range d.p`: every key of the map exactly once. -/
def IsOrder (d : StrDistr) (order : List String) : Prop :=
  order.Nodup ∧ order.toFinset = d.p.keys

instance (d : StrDistr) (order : List String) : Decidable (d.IsOrder order) := by
  unfold IsOrder; infer_instance

/-- Method `Strings`: `make([]string, len(d.p))` and then one `append` per key. -/
def Strings (d : StrDistr) (order : List String) : List String :=
  order.foldl (fun res s => res ++ [s]) (List.replicate d.p.keys.card "")

/-- The inner loop of `Pick`: `for str, p := range d.p { r -= p; if r < 0 { return str } }`. -/
def pickPass (d : StrDistr) : List String → F64 → Option String
  | [], _ => none
  | str :: rest, r =>
    let r := F64.sub r (index d.p str)
    if r.ltZero then some str else pickPass d rest r

/-- One pass of `Pick`: `r := rand.Float64() * d.sum` for the draw `u`, then the inner
loop. -/
def pickOnce (d : StrDistr) (order : List String) (u : ℚ) : Option String :=
  pickPass d order (F64.mul (.fin u) d.sum)

/-- Method `Pick`: the outer `for { ... }`, bounded by a number of passes; `none` means that
no pass has returned. -/
def Pick (d : StrDistr) (orders : ℕ → List String) (draws : ℕ → ℚ) : ℕ → Option String
  | 0 => none
  | passes + 1 =>
    match pickOnce d (orders 0) (draws 0) with
    | some str => some str
    | none => Pick d (fun i => orders (i + 1)) (fun i => draws (i + 1)) passes

end StrDistr

/-- A mutating call on a `StrDistr`. -/
inductive Call where
  | add (s : String) (f : F64)
  | remove (s : String)
deriving DecidableEq

/-- The distribution after one call. -/
def Call.apply (d : StrDistr) : Call → StrDistr
  | .add s f => d.Add s f
  | .remove s => (d.Remove s).2

/-- The distribution after a finite sequence of calls, first call first. -/
def run (calls : List Call) (d : StrDistr) : StrDistr :=
  calls.foldl Call.apply d

/-- The inner loop of the letter merge in `parseFlags`:
`for _, s := range strs { letters.Add(s, d.Weight(s)) }`. -/
def addFrom (d : StrDistr) (strs : List String) (letters : StrDistr) : StrDistr :=
  strs.foldl (fun l s => l.Add s (d.Weight s)) letters

/-- The letter merge of `parseFlags`, with the iteration orders of the two `Strings()`
calls. -/
def mergeLetters (vowels consonants : StrDistr) (ov oc : List String) : StrDistr :=
  [(vowels, ov), (consonants, oc)].foldl
    (fun letters x => addFrom x.1 (x.1.Strings x.2) letters) NewStrDistr

/-- The package-level variables that `parseFlags` sets and the generation loop reads. -/
structure Config where
  distrVowels : StrDistr
  distrConsonants : StrDistr
  distrLetters : StrDistr
  distrSyllables : StrDistr
  distrNumSyllales : StrDistr
  strIntCache : Distr.IntCache

/-- The random source of a run: pass `i` of the `Pick` loops, numbered over all calls, gets
the value `draw i` from `rand.Float64()` and ranges over the map of the distribution `d` it
samples in the order `order i d`. -/
structure Rand where
  draw : ℕ → ℚ
  order : ℕ → StrDistr → List String

/-- A call `d.Pick()` inside a run, when `n` passes have been run before it: the picked
string and the pass count after the call; `none` when no pass returned within the bound. -/
def pickAt (rnd : Rand) (d : StrDistr) : ℕ → ℕ → Option (String × ℕ)
  | 0, _ => none
  | passes + 1, n =>
    match d.pickOnce (rnd.order n d) (rnd.draw n) with
    | some str => some (str, n + 1)
    | none => pickAt rnd d passes (n + 1)

/-- The `switch c` of `main`: the distribution selected by a shape symbol, `none` in the
`default` case. -/
def letterClass (cfg : Config) (c : Char) : Option StrDistr :=
  if c = 'v' then some cfg.distrVowels
  else if c = 'c' then some cfg.distrConsonants
  else if c = 'l' then some cfg.distrLetters
  else none

/-- The loop `for _, c := range sylType { switch c { ... }; buf.WriteString(distr.Pick()) }`
over the characters of one syllable shape. -/
def writeSyllable (cfg : Config) (rnd : Rand) (passes : ℕ) :
    List Char → String → ℕ → Distr.Run
  | [], buf, n => .ok buf n
  | c :: cs, buf, n =>
    match letterClass cfg c with
    | none => .fatal c
    | some d =>
      match pickAt rnd d passes n with
      | none => .looping
      | some (s, n') => writeSyllable cfg rnd passes cs (buf ++ s) n'

/-- The loop `for syl := 0; syl < numSyls; syl++ { sylType := distrSyllables.Pick(); ... }`
with `k` iterations left. -/
def writeSyllables (cfg : Config) (rnd : Rand) (passes : ℕ) : ℕ → String → ℕ → Distr.Run
  | 0, buf, n => .ok buf n
  | k + 1, buf, n =>
    match pickAt rnd cfg.distrSyllables passes n with
    | none => .looping
    | some (sylType, n') =>
      match writeSyllable cfg rnd passes sylType.data buf n' with
      | .ok buf' n'' => writeSyllables cfg rnd passes k buf' n''
      | .fatal c => .fatal c
      | .looping => .looping

/-- The body of the loop of `main` up to `buf.String()`. -/
def generate (cfg : Config) (rnd : Rand) (passes : ℕ) (n : ℕ) : Distr.Run :=
  match pickAt rnd cfg.distrNumSyllales passes n with
  | none => .looping
  | some (key, n') =>
    writeSyllables cfg rnd passes (Distr.intIndex cfg.strIntCache key).toNat "" n'

/-- The random source that draws 1/2 in every pass and visits keys in increasing order. -/
def halfRand : Rand :=
  { draw := fun _ => 1 / 2, order := fun _ d => d.p.keys.sort (· ≤ ·) }

/-- Items `a` weighted 2 and `b` weighted 5, as built by `-voweldistr a:2,b:5`. -/
def twoFive : StrDistr :=
  (NewStrDistr.Add "a" (.fin 2)).Add "b" (.fin 5)

/-- A value of `rand.Float64()`, a multiple of `2 ^ -53` just below 2/7. -/
def nearTwoSevenths : ℚ :=
  2573485501354569 / 2 ^ 53

/-- The item `a` after `Add("a", math.MaxFloat64)` twice. -/
def overflowA : StrDistr :=
  (NewStrDistr.Add "a" (.fin maxFloat64)).Add "a" (.fin maxFloat64)

/-- The item `a` weighted with the smallest positive float64, `2 ^ -1074`. -/
def tinyA : StrDistr :=
  NewStrDistr.Add "a" (.fin (pow2 (-1074)))

/-- The distribution after `Add("z", 0)`, `Add("a", 0.1)`, `Add("b", 0.7)`, `Remove("b")`,
`Remove("a")`. -/
def drifted : StrDistr :=
  run [.add "z" (.fin 0), .add "a" (round (1 / 10)), .add "b" (round (7 / 10)),
    .remove "b", .remove "a"] NewStrDistr

/-- Vowels as built by `-voweldistr a:1e16`. -/
def bigA : StrDistr :=
  NewStrDistr.Add "a" (.fin (10 ^ 16))

/-- Consonants as built by `-consdistr b,c`. -/
def onesBC : StrDistr :=
  (NewStrDistr.Add "b" (.fin 1)).Add "c" (.fin 1)

/-- The configuration of `-voweldistr a:Inf -consdistr b -syldistr cv -numsyldistr 1`. -/
def exampleInf : Config :=
  { distrVowels := NewStrDistr.Add "a" .posInf
    distrConsonants := NewStrDistr.Add "b" (.fin 1)
    distrLetters :=
      mergeLetters (NewStrDistr.Add "a" .posInf) (NewStrDistr.Add "b" (.fin 1)) ["a"] ["b"]
    distrSyllables := NewStrDistr.Add "cv" (.fin 1)
    distrNumSyllales := NewStrDistr.Add "1" (.fin 1)
    strIntCache := (∅ : Distr.IntCache).insert "1" 1 }

/-- A distribution with the zero-weight item `z` and the item `a` weighted 2. -/
def zeroAndTwo : StrDistr :=
  (NewStrDistr.Add "z" (.fin 0)).Add "a" (.fin 2)

end Binary64

namespace Distr

/-! ## The map primitives -/

theorem index_empty (t : String) : index ∅ t = 0 := by
  simp [index]

theorem index_insert (m : WeightMap) (s t : String) (v : ℚ) :
    index (m.insert s v) t = if t = s then v else index m t := by
  unfold index
  split_ifs with h
  · subst h; rw [Finmap.lookup_insert]; rfl
  · rw [Finmap.lookup_insert_of_ne _ h]

theorem index_erase (m : WeightMap) (s t : String) :
    index (m.erase s) t = if t = s then 0 else index m t := by
  unfold index
  split_ifs with h
  · subst h; rw [Finmap.lookup_erase]; rfl
  · rw [Finmap.lookup_erase_ne h]

theorem index_of_not_mem {m : WeightMap} {t : String} (h : t ∉ m) : index m t = 0 := by
  unfold index
  rw [Finmap.lookup_eq_none.mpr h]; rfl

theorem keys_insert (m : WeightMap) (s : String) (v : ℚ) :
    (m.insert s v).keys = insert s m.keys := by
  ext k
  simp [Finmap.mem_keys, Finmap.mem_insert]

namespace StrDistr

/-! ## `Add`, `Remove`, `Weight`, `Sum` -/

theorem Weight_New (t : String) : NewStrDistr.Weight t = 0 :=
  index_empty t

theorem Weight_Add (d : StrDistr) (s t : String) (f : ℚ) :
    (d.Add s f).Weight t = if t = s then d.Weight s + max f 0 else d.Weight t := by
  simp only [Weight, StrDistr.Add, index_insert]

theorem sum_Add (d : StrDistr) (s : String) (f : ℚ) :
    (d.Add s f).sum = d.sum + max f 0 :=
  rfl

theorem keys_Add (d : StrDistr) (s : String) (f : ℚ) :
    (d.Add s f).p.keys = insert s d.p.keys :=
  keys_insert _ _ _

theorem Weight_Remove (d : StrDistr) (s t : String) :
    (d.Remove s).2.Weight t = if t = s then 0 else d.Weight t := by
  simp only [Weight, Remove, index_erase]

theorem sum_Remove (d : StrDistr) (s : String) :
    (d.Remove s).2.sum = d.sum - d.Weight s :=
  rfl

theorem keys_Remove (d : StrDistr) (s : String) :
    (d.Remove s).2.p.keys = d.p.keys.erase s :=
  Finmap.keys_erase _ _

theorem Weight_of_not_mem {d : StrDistr} {t : String} (h : t ∉ d.p) : d.Weight t = 0 :=
  index_of_not_mem h

theorem storedSum_New : NewStrDistr.storedSum = 0 := by
  simp [storedSum, NewStrDistr]

theorem storedSum_Add (d : StrDistr) (s : String) (f : ℚ) :
    (d.Add s f).storedSum = d.storedSum + max f 0 := by
  have hpt : ∀ k, index (d.Add s f).p k = index d.p k + if k = s then max f 0 else 0 := by
    intro k
    have h := Weight_Add d s k f
    simp only [Weight] at h
    rw [h]
    split_ifs with hk
    · rw [hk]
    · rw [add_zero]
  have hold : ∑ k in insert s d.p.keys, index d.p k = ∑ k in d.p.keys, index d.p k :=
    Finset.sum_insert_of_eq_zero_if_not_mem
      (fun hs => index_of_not_mem (fun hm => hs (Finmap.mem_keys.mpr hm)))
  unfold storedSum
  rw [keys_Add, Finset.sum_congr rfl (fun k _ => hpt k), Finset.sum_add_distrib, hold,
    Finset.sum_ite_eq', if_pos (Finset.mem_insert_self _ _)]

theorem storedSum_Remove (d : StrDistr) (s : String) :
    (d.Remove s).2.storedSum = d.storedSum - d.Weight s := by
  have hpt : ∀ k ∈ d.p.keys.erase s, index (d.Remove s).2.p k = index d.p k := by
    intro k hk
    have h := Weight_Remove d s k
    simp only [Weight] at h
    rw [h, if_neg (Finset.ne_of_mem_erase hk)]
  unfold storedSum
  rw [keys_Remove, Finset.sum_congr rfl hpt]
  by_cases hs : s ∈ d.p.keys
  · rw [Finset.sum_erase_eq_sub hs]; rfl
  · rw [Finset.erase_eq_of_not_mem hs,
      Weight_of_not_mem (fun hm => hs (Finmap.mem_keys.mpr hm)), sub_zero]

theorem Weight_addAll_from (calls : List (String × ℚ)) (d : StrDistr) (k : String) :
    (addAll calls d).Weight k
      = d.Weight k + ((calls.filter (fun c => c.1 = k)).map (fun c => max c.2 0)).sum := by
  induction calls generalizing d with
  | nil => simp [addAll]
  | cons c rest ih =>
    have hstep : addAll (c :: rest) d = addAll rest (d.Add c.1 c.2) := rfl
    rw [hstep, ih, Weight_Add]
    by_cases hk : c.1 = k
    · simp [List.filter_cons, hk, add_assoc]
    · have hk2 : ¬ k = c.1 := fun h => hk h.symm
      simp [List.filter_cons, hk, hk2]

theorem sum_run_from (calls : List Call) (d : StrDistr) (h : d.sum = d.storedSum) :
    (run calls d).sum = (run calls d).storedSum := by
  induction calls generalizing d with
  | nil => exact h
  | cons c rest ih =>
    have hstep : run (c :: rest) d = run rest (c.apply d) := rfl
    rw [hstep]
    apply ih
    cases c with
    | add s f => simp only [Call.apply]; rw [sum_Add, storedSum_Add, h]
    | remove s => simp only [Call.apply]; rw [sum_Remove, storedSum_Remove, h]

/-! ## Claims -/

/-- C1: starting from the empty distribution, after any finite sequence of `Add(s_i, f_i)`
calls the weight of every key `k` is the sum of `max(f_i, 0)` over exactly the calls with
`s_i = k` (and `0` when there is none): `Add` accumulates, it never replaces. -/
theorem Weight_addAll (calls : List (String × ℚ)) (k : String) :
    (addAll calls NewStrDistr).Weight k
      = ((calls.filter (fun c => c.1 = k)).map (fun c => max c.2 0)).sum := by
  rw [Weight_addAll_from, Weight_New, zero_add]

/-- C2: in every state reached from `NewStrDistr()` by a finite interleaving of `Add` and
`Remove` calls, `Sum()` equals the sum of the weights stored in the map over all its keys. -/
theorem Sum_eq_storedSum (calls : List Call) :
    (run calls NewStrDistr).Sum = (run calls NewStrDistr).storedSum :=
  sum_run_from calls NewStrDistr storedSum_New.symm

/-- C3: `Remove(s)` returns the weight `s` had before the call (the stored value, `0` when `s`
was absent); afterwards `Weight(s)` is `0`, `s` is not a key, and `Sum()` has decreased by
exactly the returned weight. -/
theorem Remove_spec (d : StrDistr) (s : String) :
    (d.Remove s).1 = d.Weight s
      ∧ (d.Remove s).1 = (d.p.lookup s).getD 0
      ∧ (d.Remove s).2.Weight s = 0
      ∧ s ∉ (d.Remove s).2.p
      ∧ (d.Remove s).2.Sum = d.Sum - (d.Remove s).1 :=
  ⟨rfl, rfl, by rw [Weight_Remove, if_pos rfl], Finmap.not_mem_erase_self, rfl⟩

/-! ## One pass of `Pick` -/

theorem index_nonneg {d : StrDistr} (hnn : d.NonNeg) (k : String) : 0 ≤ index d.p k := by
  by_cases hk : k ∈ d.p.keys
  · exact hnn k hk
  · rw [index_of_not_mem (fun hm => hk (Finmap.mem_keys.mpr hm))]

theorem NonNeg_run_from (calls : List Call) (d : StrDistr) (h : d.NonNeg) :
    (run calls d).NonNeg := by
  induction calls generalizing d with
  | nil => exact h
  | cons c rest ih =>
    have hstep : run (c :: rest) d = run rest (c.apply d) := rfl
    rw [hstep]
    apply ih
    intro k _
    cases c with
    | add s f =>
      have hw := Weight_Add d s k f
      simp only [Weight] at hw
      simp only [Call.apply]
      rw [hw]
      split_ifs
      · exact add_nonneg (index_nonneg h s) (le_max_right f 0)
      · exact index_nonneg h k
    | remove s =>
      have hw := Weight_Remove d s k
      simp only [Weight] at hw
      simp only [Call.apply]
      rw [hw]
      split_ifs
      · exact le_refl 0
      · exact index_nonneg h k

theorem sum_map_order {d : StrDistr} {order : List String} (ho : d.IsOrder order) :
    (order.map (index d.p)).sum = d.storedSum := by
  unfold storedSum
  rw [← ho.2, List.sum_toFinset _ ho.1]

theorem mem_of_mem_order {d : StrDistr} {order : List String} (ho : d.IsOrder order)
    {s : String} (hs : s ∈ order) : s ∈ d.p := by
  rw [← Finmap.mem_keys, ← ho.2]
  exact List.mem_toFinset.mpr hs

theorem pickPass_mem (d : StrDistr) (l : List String) (r : ℚ) (s : String)
    (h : pickPass d l r = some s) : s ∈ l := by
  induction l generalizing r with
  | nil => simp [pickPass] at h
  | cons a rest ih =>
    simp only [pickPass] at h
    split_ifs at h with hr
    · simp only [Option.some.injEq] at h
      rw [← h]; exact List.mem_cons_self _ _
    · exact List.mem_cons_of_mem _ (ih _ h)

theorem pickPass_pos (d : StrDistr) (l : List String) (r : ℚ) (hr : 0 ≤ r) (s : String)
    (h : pickPass d l r = some s) : 0 < index d.p s := by
  induction l generalizing r with
  | nil => simp [pickPass] at h
  | cons a rest ih =>
    simp only [pickPass] at h
    split_ifs at h with hlt
    · simp only [Option.some.injEq] at h
      rw [← h]; linarith
    · exact ih _ (not_lt.mp hlt) h

theorem pickPass_none_of_zero (d : StrDistr) (hz : ∀ k, index d.p k = 0) (l : List String)
    (r : ℚ) (hr : 0 ≤ r) : pickPass d l r = none := by
  induction l with
  | nil => rfl
  | cons a rest ih =>
    simp only [pickPass]
    rw [hz a, sub_zero, if_neg (not_lt.mpr hr)]
    exact ih

theorem pickPass_single (d : StrDistr) (k : String) (hz : ∀ t, t ≠ k → index d.p t = 0)
    (l : List String) (hk : k ∈ l) (r : ℚ) (h0 : 0 ≤ r) (h1 : r < index d.p k) :
    pickPass d l r = some k := by
  induction l with
  | nil => simp at hk
  | cons a rest ih =>
    simp only [pickPass]
    by_cases ha : a = k
    · rw [ha, if_pos (by linarith)]
    · rw [hz a ha, sub_zero, if_neg (not_lt.mpr h0)]
      rcases List.mem_cons.mp hk with h | h
      · exact absurd h.symm ha
      · exact ih h

theorem cumWeight_zero (d : StrDistr) (l : List String) : cumWeight d l 0 = 0 := by
  simp [cumWeight]

theorem cumWeight_cons_succ (d : StrDistr) (a : String) (l : List String) (j : ℕ) :
    cumWeight d (a :: l) (j + 1) = index d.p a + cumWeight d l j := by
  simp [cumWeight]

theorem cumWeight_nonneg {d : StrDistr} (hnn : d.NonNeg) (l : List String) (j : ℕ) :
    0 ≤ cumWeight d l j := by
  induction l generalizing j with
  | nil => simp [cumWeight]
  | cons a rest ih =>
    cases j with
    | zero => rw [cumWeight_zero]
    | succ j => rw [cumWeight_cons_succ]; exact add_nonneg (index_nonneg hnn a) (ih j)

theorem cumWeight_succ (d : StrDistr) (l : List String) (j : ℕ) (hj : j < l.length) :
    cumWeight d l (j + 1) = cumWeight d l j + index d.p l[j] := by
  induction l generalizing j with
  | nil => simp at hj
  | cons a rest ih =>
    cases j with
    | zero => simp [cumWeight]
    | succ j =>
      have hj2 : j < rest.length := by simpa using hj
      rw [cumWeight_cons_succ, cumWeight_cons_succ, ih j hj2, add_assoc]
      simp

theorem cumWeight_le_total {d : StrDistr} (hnn : d.NonNeg) (l : List String) (j : ℕ) :
    cumWeight d l j ≤ (l.map (index d.p)).sum := by
  induction l generalizing j with
  | nil => simp [cumWeight]
  | cons a rest ih =>
    cases j with
    | zero =>
      rw [cumWeight_zero]
      exact List.sum_nonneg (by
        intro x hx
        rcases List.mem_map.mp hx with ⟨k, _, rfl⟩
        exact index_nonneg hnn k)
    | succ j =>
      rw [cumWeight_cons_succ, List.map_cons, List.sum_cons]
      exact add_le_add_left (ih j) _

theorem pickPass_eq_some_iff {d : StrDistr} (hnn : d.NonNeg) (l : List String)
    (hl : l.Nodup) (r : ℚ) (hr : 0 ≤ r) (j : ℕ) (hj : j < l.length) :
    pickPass d l r = some l[j] ↔ cumWeight d l j ≤ r ∧ r < cumWeight d l (j + 1) := by
  induction l generalizing r j with
  | nil => simp at hj
  | cons a rest ih =>
    have hnd := List.nodup_cons.mp hl
    simp only [pickPass]
    cases j with
    | zero =>
      rw [cumWeight_zero, cumWeight_cons_succ, cumWeight_zero, add_zero]
      simp only [List.getElem_cons_zero]
      split_ifs with hlt
      · constructor
        · intro _; exact ⟨hr, by linarith⟩
        · intro _; rfl
      · constructor
        · intro h
          exact absurd (pickPass_mem d rest _ a h) hnd.1
        · intro h
          exact absurd (by linarith [h.2]) hlt
    | succ j =>
      have hj2 : j < rest.length := by simpa using hj
      rw [cumWeight_cons_succ, cumWeight_cons_succ]
      simp only [List.getElem_cons_succ]
      split_ifs with hlt
      · constructor
        · intro h
          simp only [Option.some.injEq] at h
          exact absurd (h ▸ List.getElem_mem hj2) hnd.1
        · intro h
          have := cumWeight_nonneg hnn rest j
          exact absurd hlt (by linarith [h.1])
      · rw [ih hnd.2 _ (not_lt.mp hlt) j hj2]
        constructor
        · intro h; exact ⟨by linarith [h.1], by linarith [h.2]⟩
        · intro h; exact ⟨by linarith [h.1], by linarith [h.2]⟩

theorem Pick_succ_of_some {d : StrDistr} {orders : ℕ → List String} {draws : ℕ → ℚ}
    {s : String} (h : pickOnce d (orders 0) (draws 0) = some s) (passes : ℕ) :
    Pick d orders draws (passes + 1) = some s := by
  simp only [Pick, h]

theorem Pick_none_of_zero (d : StrDistr) (hz : ∀ k, index d.p k = 0) (hs : d.sum = 0)
    (orders : ℕ → List String) (draws : ℕ → ℚ) (passes : ℕ) :
    Pick d orders draws passes = none := by
  induction passes generalizing orders draws with
  | zero => rfl
  | succ n ih =>
    have h1 : pickOnce d (orders 0) (draws 0) = none := by
      unfold pickOnce
      rw [hs, mul_zero]
      exact pickPass_none_of_zero d hz _ 0 (le_refl 0)
    simp only [Pick, h1]
    exact ih _ _

theorem index_zero_of_sum_zero {d : StrDistr} (hnn : d.NonNeg) (hinv : d.SumInv)
    (hs : d.sum = 0) (k : String) : index d.p k = 0 := by
  by_cases hk : k ∈ d.p.keys
  · have h0 : ∑ i in d.p.keys, index d.p i = 0 := by
      have := hinv
      unfold SumInv storedSum at this
      rw [← this, hs]
    exact (Finset.sum_eq_zero_iff_of_nonneg hnn).mp h0 k hk
  · exact index_of_not_mem (fun hm => hk (Finmap.mem_keys.mpr hm))

theorem Pick_sound (d : StrDistr) (hs : 0 ≤ d.sum) (orders : ℕ → List String)
    (ho : ∀ i, d.IsOrder (orders i)) (draws : ℕ → ℚ) (hu : ∀ i, 0 ≤ draws i) (passes : ℕ)
    (s : String) (h : Pick d orders draws passes = some s) : s ∈ d.p ∧ 0 < index d.p s := by
  induction passes generalizing orders draws with
  | zero => simp [Pick] at h
  | succ n ih =>
    simp only [Pick] at h
    cases h1 : pickOnce d (orders 0) (draws 0) with
    | some t =>
      rw [h1] at h
      simp only [Option.some.injEq] at h
      subst h
      unfold pickOnce at h1
      exact ⟨mem_of_mem_order (ho 0) (pickPass_mem d _ _ t h1),
        pickPass_pos d _ _ (mul_nonneg (hu 0) hs) t h1⟩
    | none =>
      rw [h1] at h
      exact ih _ (fun i => ho (i + 1)) _ (fun i => hu (i + 1)) h

theorem storedSum_nonneg {d : StrDistr} (hnn : d.NonNeg) : 0 ≤ d.storedSum :=
  Finset.sum_nonneg hnn

/-- C4, amended: in exact arithmetic `Pick` samples proportionally to weight.  With the
weights, the product `u * Sum()` and the running subtraction computed without rounding, for
a distribution with non-negative stored weights, the sum invariant and `Sum() > 0`, for every iteration order `k_0 .. k_(n-1)`
of its keys and every position `j`: for every draw `u` in `[0,1)`, one pass of `Pick`
returns `k_j` if and only if `w_0 + .. + w_(j-1) ≤ u * Sum() < w_0 + .. + w_j`; so the draws
that select `k_j` form the half-open interval from `(w_0 + .. + w_(j-1)) / Sum()` to
`(w_0 + .. + w_j) / Sum()`, whose length is `Weight(k_j) / Sum()`. -/
theorem pickOnce_proportional (d : StrDistr) (hnn : d.NonNeg) (hinv : d.SumInv)
    (hpos : 0 < d.Sum) (order : List String) (ho : d.IsOrder order) (j : ℕ)
    (hj : j < order.length) :
    (∀ u : ℚ, 0 ≤ u → u < 1 →
        (pickOnce d order u = some order[j]
          ↔ cumWeight d order j ≤ u * d.Sum ∧ u * d.Sum < cumWeight d order (j + 1)))
      ∧ {u : ℚ | 0 ≤ u ∧ u < 1 ∧ pickOnce d order u = some order[j]}
          = Set.Ico (cumWeight d order j / d.Sum) (cumWeight d order (j + 1) / d.Sum)
      ∧ cumWeight d order (j + 1) / d.Sum - cumWeight d order j / d.Sum
          = d.Weight order[j] / d.Sum := by
  have hiff : ∀ u : ℚ, 0 ≤ u →
      (pickOnce d order u = some order[j]
        ↔ cumWeight d order j ≤ u * d.Sum ∧ u * d.Sum < cumWeight d order (j + 1)) :=
    fun u hu0 => pickPass_eq_some_iff hnn order ho.1 _ (mul_nonneg hu0 hpos.le) j hj
  have htot : cumWeight d order (j + 1) ≤ d.Sum := by
    have h := cumWeight_le_total hnn order (j + 1)
    rw [sum_map_order ho] at h
    exact h.trans (le_of_eq hinv.symm)
  refine ⟨fun u hu0 _ => hiff u hu0, ?_, ?_⟩
  · ext u
    simp only [Set.mem_setOf_eq, Set.mem_Ico]
    rw [div_le_iff₀ hpos, lt_div_iff₀ hpos]
    constructor
    · rintro ⟨hu0, _, hp⟩
      exact (hiff u hu0).mp hp
    · rintro ⟨h1, h2⟩
      have hu0 : 0 ≤ u := by
        by_contra hneg
        have : u * d.Sum < 0 := mul_neg_of_neg_of_pos (not_le.mp hneg) hpos
        linarith [cumWeight_nonneg hnn order j]
      have hu1 : u < 1 := by
        by_contra hge
        have : d.Sum ≤ u * d.Sum := le_mul_of_one_le_left hpos.le (not_lt.mp hge)
        linarith
      exact ⟨hu0, hu1, (hiff u hu0).mpr ⟨h1, h2⟩⟩
  · rw [cumWeight_succ d order j hj, ← sub_div, add_sub_cancel_left]
    rfl

/-- Witness of the amended C4 on the items weighted 1 and 3, visited in the order `a`, `b`: the draws
that select `a` are exactly `[0, 1/4)` and the draws that select `b` are exactly `[1/4, 1)`. -/
theorem pickOnce_proportional_witness :
    {u : ℚ | 0 ≤ u ∧ u < 1 ∧ pickOnce oneThree ["a", "b"] u = some "a"} = Set.Ico 0 (1 / 4)
      ∧ {u : ℚ | 0 ≤ u ∧ u < 1 ∧ pickOnce oneThree ["a", "b"] u = some "b"}
          = Set.Ico (1 / 4) 1
      ∧ oneThree.Weight "a" / oneThree.Sum = 1 / 4
      ∧ oneThree.Weight "b" / oneThree.Sum = 3 / 4 := by
  have hnn : oneThree.NonNeg := by decide!
  have hinv : oneThree.SumInv := by decide!
  have hpos : 0 < oneThree.Sum := by decide!
  have ho : oneThree.IsOrder ["a", "b"] := by decide
  have ha := (pickOnce_proportional oneThree hnn hinv hpos ["a", "b"] ho 0 (by decide)).2.1
  have hb := (pickOnce_proportional oneThree hnn hinv hpos ["a", "b"] ho 1 (by decide)).2.1
  have e0 : cumWeight oneThree ["a", "b"] 0 / oneThree.Sum = 0 := by decide!
  have e1 : cumWeight oneThree ["a", "b"] (0 + 1) / oneThree.Sum = 1 / 4 := by decide!
  have e1b : cumWeight oneThree ["a", "b"] 1 / oneThree.Sum = 1 / 4 := by decide!
  have e2 : cumWeight oneThree ["a", "b"] (1 + 1) / oneThree.Sum = 1 := by decide!
  rw [e0, e1] at ha
  rw [e1b, e2] at hb
  exact ⟨ha, hb, by decide!, by decide!⟩

/-- C5, amended: in exact arithmetic (finite weights, no rounding), when exactly one key `k`
has positive weight (any other key present has weight 0) and the sum invariant holds, `Pick`
returns `k` already in its first pass, for every draw in `[0,1)` and every iteration order
of the keys. -/
theorem Pick_single (d : StrDistr) (k : String) (hk : 0 < d.Weight k)
    (hz : ∀ t, t ≠ k → d.Weight t = 0) (hinv : d.SumInv) (orders : ℕ → List String)
    (ho : ∀ i, d.IsOrder (orders i)) (draws : ℕ → ℚ) (hu : ∀ i, 0 ≤ draws i ∧ draws i < 1)
    (passes : ℕ) :
    Pick d orders draws (passes + 1) = some k := by
  have hmem : k ∈ d.p.keys := by
    by_contra hn
    have := @Weight_of_not_mem d k (fun hm => hn (Finmap.mem_keys.mpr hm))
    linarith
  have hsum : d.sum = index d.p k := by
    have h := hinv
    unfold SumInv storedSum at h
    rw [h]
    exact Finset.sum_eq_single_of_mem k hmem (fun t _ ht => hz t ht)
  have hko : k ∈ orders 0 := by
    have h := (ho 0).2
    rw [← h] at hmem
    exact List.mem_toFinset.mp hmem
  apply Pick_succ_of_some
  unfold pickOnce
  apply pickPass_single d k hz _ hko
  · rw [hsum]; exact mul_nonneg (hu 0).1 hk.le
  · rw [hsum]
    have hk2 : 0 < index d.p k := hk
    nlinarith [(hu 0).2]

/-- Witness of the amended C5: item `a` of weight 2 next to the zero-weight item `z`, visited with `z`
first, with the draw 3/4 in every pass. -/
theorem Pick_single_witness :
    Pick singleA (fun _ => ["z", "a"]) (fun _ => 3 / 4) (0 + 1) = some "a" :=
  Pick_single singleA "a" (by decide!)
    (by
      intro t ht
      have hw : ∀ s, singleA.Weight s = if s = "a" then 2 else 0 := by
        intro s
        simp only [singleA, Weight_Add, Weight_New]
        split_ifs <;> norm_num
      rw [hw t, if_neg ht])
    (by decide!) (fun _ => ["z", "a"])
    (fun _ => show singleA.IsOrder ["z", "a"] by decide) (fun _ => 3 / 4)
    (fun _ => by norm_num) 0

/-- C7, on the code: `NewStrDistr().Pick()` does not end with an error, it does not end at
all.  There is no number of passes after which `Pick` has produced a result: with no keys
and `sum = 0` every pass reaches the message and the loop starts over. -/
theorem Pick_empty_never_terminates :
    ¬ ∃ passes : ℕ, Pick NewStrDistr (fun _ => []) (fun _ => 1 / 2) passes ≠ none := by
  rintro ⟨passes, h⟩
  exact h (Pick_none_of_zero NewStrDistr index_empty rfl _ _ passes)

/-- C8: a non-positive weight is clamped to zero, not rejected.  For `f ≤ 0`, `Add(s, f)`
leaves `Sum()` unchanged and leaves `Weight(t)` unchanged for every string `t`, `s`
included; afterwards `s` is a key of the map, stored with the weight it had before, which
is `0` when `s` was absent, and no other key has been added. -/
theorem Add_nonpos (d : StrDistr) (s : String) (f : ℚ) (hf : f ≤ 0) :
    (d.Add s f).Sum = d.Sum
      ∧ (∀ t, (d.Add s f).Weight t = d.Weight t)
      ∧ s ∈ (d.Add s f).p
      ∧ (d.Add s f).p.lookup s = some ((d.p.lookup s).getD 0)
      ∧ (d.Add s f).p.keys = insert s d.p.keys := by
  have hmax : max f 0 = 0 := max_eq_right hf
  refine ⟨?_, ?_, ?_, ?_, keys_Add d s f⟩
  · show (d.Add s f).sum = d.sum
    rw [sum_Add, hmax, add_zero]
  · intro t
    rw [Weight_Add, hmax, add_zero]
    split_ifs with h
    · rw [h]
    · rfl
  · rw [← Finmap.mem_keys, keys_Add]
    exact Finset.mem_insert_self _ _
  · show (d.p.insert s (index d.p s + max f 0)).lookup s = _
    rw [Finmap.lookup_insert, hmax, add_zero]
    rfl

/-- Witness of C8: adding `a` with weight `-1` to the empty distribution keeps the sum and
every weight at 0 and stores the key `a` with value 0. -/
theorem Add_nonpos_witness :
    (-1 : ℚ) ≤ 0
      ∧ (NewStrDistr.Add "a" (-1)).Sum = NewStrDistr.Sum
      ∧ (∀ t, (NewStrDistr.Add "a" (-1)).Weight t = NewStrDistr.Weight t)
      ∧ "a" ∈ (NewStrDistr.Add "a" (-1)).p
      ∧ (NewStrDistr.Add "a" (-1)).p.lookup "a" = some ((NewStrDistr.p.lookup "a").getD 0)
      ∧ (NewStrDistr.Add "a" (-1)).p.keys = insert "a" NewStrDistr.p.keys :=
  ⟨by norm_num, Add_nonpos NewStrDistr "a" (-1) (by norm_num)⟩

/-- C9, on the code: for the distribution holding the single key `a`, whose only iteration
order is `a`, `Strings()` returns the two-element list of the empty string and `a`, although
the map has one key and the empty string is not a key. -/
theorem Strings_single_key :
    (NewStrDistr.Add "a" 1).IsOrder ["a"]
      ∧ (NewStrDistr.Add "a" 1).Strings ["a"] = ["", "a"]
      ∧ ((NewStrDistr.Add "a" 1).Strings ["a"]).length = 2
      ∧ (NewStrDistr.Add "a" 1).p.keys.card = 1
      ∧ "" ∉ (NewStrDistr.Add "a" 1).p := by
  refine ⟨by decide, by decide, by decide, by decide, by decide⟩

/-! ## The letter merge of `parseFlags` -/

theorem Reachable_valid {d : StrDistr} (h : Reachable d) : d.NonNeg ∧ d.SumInv := by
  obtain ⟨calls, rfl⟩ := h
  refine ⟨NonNeg_run_from calls NewStrDistr ?_, sum_run_from calls NewStrDistr storedSum_New.symm⟩
  intro k hk
  simp [NewStrDistr] at hk

theorem Strings_eq (d : StrDistr) (order : List String) :
    d.Strings order = List.replicate d.p.keys.card "" ++ order := by
  unfold Strings
  generalize List.replicate d.p.keys.card "" = init
  induction order generalizing init with
  | nil => simp
  | cons a rest ih => rw [List.foldl_cons, ih]; simp

theorem addFrom_cons (d : StrDistr) (s : String) (strs : List String) (letters : StrDistr) :
    addFrom d (s :: strs) letters = addFrom d strs (letters.Add s (d.Weight s)) :=
  rfl

theorem addFrom_append (d : StrDistr) (l₁ l₂ : List String) (letters : StrDistr) :
    addFrom d (l₁ ++ l₂) letters = addFrom d l₂ (addFrom d l₁ letters) :=
  List.foldl_append _ _ _ _

theorem addFrom_blanks (d : StrDistr) (h0 : d.Weight "" = 0) (n : ℕ) (letters : StrDistr)
    (t : String) :
    (addFrom d (List.replicate n "") letters).Weight t = letters.Weight t
      ∧ (addFrom d (List.replicate n "") letters).sum = letters.sum := by
  induction n generalizing letters with
  | zero => exact ⟨rfl, rfl⟩
  | succ n ih =>
    rw [List.replicate_succ, addFrom_cons, h0]
    obtain ⟨h1, h2⟩ := ih (letters.Add "" 0)
    rw [h1, h2, Weight_Add, sum_Add, max_self, add_zero, add_zero]
    refine ⟨?_, rfl⟩
    split_ifs with h
    · rw [h]
    · rfl

theorem addFrom_keys (d : StrDistr) (hnn : d.NonNeg) (o : List String) (ho : o.Nodup)
    (letters : StrDistr) (t : String) :
    (addFrom d o letters).Weight t = letters.Weight t + (if t ∈ o then d.Weight t else 0)
      ∧ (addFrom d o letters).sum = letters.sum + (o.map (index d.p)).sum := by
  induction o generalizing letters with
  | nil => simp [addFrom]
  | cons a rest ih =>
    have hnd := List.nodup_cons.mp ho
    have hmax : max (d.Weight a) 0 = d.Weight a := max_eq_left (index_nonneg hnn a)
    obtain ⟨h1, h2⟩ := ih hnd.2 (letters.Add a (d.Weight a))
    rw [addFrom_cons, h1, h2, Weight_Add, sum_Add, hmax, List.map_cons, List.sum_cons]
    refine ⟨?_, by rw [add_assoc]; rfl⟩
    by_cases hta : t = a
    · have hnot : ¬ t ∈ rest := fun hm => hnd.1 (hta ▸ hm)
      rw [if_pos hta, if_neg hnot, if_pos (hta ▸ List.mem_cons_self _ _), add_zero, hta]
    · by_cases htr : t ∈ rest
      · rw [if_neg hta, if_pos htr, if_pos (List.mem_cons_of_mem _ htr)]
      · have hnot : ¬ t ∈ a :: rest := fun hm =>
          (List.mem_cons.mp hm).elim hta htr
        rw [if_neg hta, if_neg htr, if_neg hnot]

theorem addFrom_Strings (d : StrDistr) (hnn : d.NonNeg) (hinv : d.SumInv)
    (h0 : d.Weight "" = 0) (order : List String) (ho : d.IsOrder order)
    (letters : StrDistr) (t : String) :
    (addFrom d (d.Strings order) letters).Weight t = letters.Weight t + d.Weight t
      ∧ (addFrom d (d.Strings order) letters).sum = letters.sum + d.sum := by
  rw [Strings_eq, addFrom_append]
  obtain ⟨h1, h2⟩ := addFrom_keys d hnn order ho.1
    (addFrom d (List.replicate d.p.keys.card "") letters) t
  obtain ⟨h3, h4⟩ := addFrom_blanks d h0 d.p.keys.card letters t
  rw [h1, h2, h3, h4, sum_map_order ho, ← show d.sum = d.storedSum from hinv]
  refine ⟨?_, rfl⟩
  split_ifs with hm
  · rfl
  · have hnk : t ∉ d.p := by
      intro hk
      rw [← Finmap.mem_keys, ← ho.2] at hk
      exact hm (List.mem_toFinset.mp hk)
    rw [Weight_of_not_mem hnk]

/-- C10, amended: in exact arithmetic, for vowel and consonant distributions with
non-negative stored weights and the sum invariant, in which the empty string carries no
weight (`parseFlags` only ever adds single-character keys), the merged `letters`
distribution carries the summed weights, for all iteration orders: `letters.Weight(s) = vowels.Weight(s) + consonants.Weight(s)` for every
string `s`, and `letters.Sum() = vowels.Sum() + consonants.Sum()`. -/
theorem mergeLetters_sums (vowels consonants : StrDistr)
    (hvn : vowels.NonNeg) (hvi : vowels.SumInv) (hcn : consonants.NonNeg)
    (hci : consonants.SumInv) (hv0 : vowels.Weight "" = 0) (hc0 : consonants.Weight "" = 0)
    (ov oc : List String) (hov : vowels.IsOrder ov) (hoc : consonants.IsOrder oc) :
    (∀ s, (mergeLetters vowels consonants ov oc).Weight s
        = vowels.Weight s + consonants.Weight s)
      ∧ (mergeLetters vowels consonants ov oc).Sum = vowels.Sum + consonants.Sum := by
  have hm : mergeLetters vowels consonants ov oc
      = addFrom consonants (consonants.Strings oc)
          (addFrom vowels (vowels.Strings ov) NewStrDistr) := rfl
  rw [hm]
  constructor
  · intro s
    rw [(addFrom_Strings consonants hcn hci hc0 oc hoc _ s).1,
      (addFrom_Strings vowels hvn hvi hv0 ov hov _ s).1, Weight_New, zero_add]
  · show (addFrom consonants (consonants.Strings oc) _).sum = vowels.sum + consonants.sum
    rw [(addFrom_Strings consonants hcn hci hc0 oc hoc _ "").2,
      (addFrom_Strings vowels hvn hvi hv0 ov hov _ "").2]
    show (0 : ℚ) + vowels.sum + consonants.sum = _
    rw [zero_add]

/-- Witness of the amended C10, the merge example of the specification: vowels `a:2` and
consonants `b:3` give `letters.Weight("a") = 2`, `letters.Weight("b") = 3` and
`letters.Sum() = 5`. -/
theorem mergeLetters_sums_witness :
    (mergeLetters vowelsA consonantsB ["a"] ["b"]).Weight "a" = 2
      ∧ (mergeLetters vowelsA consonantsB ["a"] ["b"]).Weight "b" = 3
      ∧ (mergeLetters vowelsA consonantsB ["a"] ["b"]).Sum = 5 := by
  have h := mergeLetters_sums vowelsA consonantsB (by decide!) (by decide!) (by decide!)
    (by decide!) (by decide!) (by decide!) ["a"] ["b"] (by decide) (by decide)
  have ha : vowelsA.Weight "a" + consonantsB.Weight "a" = 2 := by decide!
  have hb : vowelsA.Weight "b" + consonantsB.Weight "b" = 3 := by decide!
  have hs : vowelsA.Sum + consonantsB.Sum = 5 := by decide!
  exact ⟨(h.1 "a").trans ha, (h.1 "b").trans hb, h.2.trans hs⟩

/-! ## Algebra of `Add` and `Remove`, and termination of `Pick` -/

theorem erase_erase_self (m : WeightMap) (s : String) : (m.erase s).erase s = m.erase s := by
  apply Finmap.ext_lookup
  intro x
  by_cases hx : x = s
  · rw [hx, Finmap.lookup_erase, Finmap.lookup_erase]
  · rw [Finmap.lookup_erase_ne hx]

theorem erase_insert_of_not_mem (m : WeightMap) (s : String) (v : ℚ) (hs : s ∉ m) :
    (m.insert s v).erase s = m := by
  apply Finmap.ext_lookup
  intro x
  by_cases hx : x = s
  · rw [hx, Finmap.lookup_erase, Finmap.lookup_eq_none.mpr hs]
  · rw [Finmap.lookup_erase_ne hx, Finmap.lookup_insert_of_ne _ hx]

theorem lookup_Add_of_ne (d : StrDistr) (s t : String) (f : ℚ) (h : s ≠ t) :
    (d.Add s f).p.lookup t = d.p.lookup t :=
  Finmap.lookup_insert_of_ne _ (fun e => h e.symm)

theorem lookup_Remove_of_ne (d : StrDistr) (s t : String) (h : s ≠ t) :
    (d.Remove s).2.p.lookup t = d.p.lookup t :=
  Finmap.lookup_erase_ne (fun e => h e.symm)

theorem pickPass_isSome (d : StrDistr) (l : List String) (r : ℚ) (h0 : 0 ≤ r)
    (h1 : r < (l.map (index d.p)).sum) : (pickPass d l r).isSome = true := by
  induction l generalizing r with
  | nil =>
    simp only [List.map_nil, List.sum_nil] at h1
    exact absurd h1 (not_lt.mpr h0)
  | cons a rest ih =>
    simp only [pickPass]
    split_ifs with hlt
    · rfl
    · rw [List.map_cons, List.sum_cons] at h1
      exact ih _ (not_lt.mp hlt) (by linarith)

theorem pickOnce_isSome (d : StrDistr) (hinv : d.SumInv) (hpos : 0 < d.sum)
    (order : List String) (ho : d.IsOrder order) (u : ℚ) (hu0 : 0 ≤ u) (hu1 : u < 1) :
    (pickOnce d order u).isSome = true := by
  unfold pickOnce
  apply pickPass_isSome d order _ (mul_nonneg hu0 hpos.le)
  rw [sum_map_order ho, ← show d.sum = d.storedSum from hinv]
  exact mul_lt_of_lt_one_left hpos hu1

/-- C14: `Remove` always succeeds and is idempotent.  A second `Remove(s)` returns 0 and
leaves the distribution exactly as the first one left it: the same map (same keys, same
weights) and the same `Sum()`. -/
theorem Remove_idempotent (d : StrDistr) (s : String) :
    ((d.Remove s).2.Remove s).2 = (d.Remove s).2
      ∧ ((d.Remove s).2.Remove s).1 = 0
      ∧ ((d.Remove s).2.Remove s).2.p.keys = (d.Remove s).2.p.keys
      ∧ (∀ t, ((d.Remove s).2.Remove s).2.Weight t = (d.Remove s).2.Weight t)
      ∧ ((d.Remove s).2.Remove s).2.Sum = (d.Remove s).2.Sum := by
  have hret : ((d.Remove s).2.Remove s).1 = 0 := by
    show (d.Remove s).2.Weight s = 0
    rw [Weight_Remove, if_pos rfl]
  have hst : ((d.Remove s).2.Remove s).2 = (d.Remove s).2 := by
    have hp : ((d.Remove s).2.Remove s).2.p = (d.Remove s).2.p := erase_erase_self d.p s
    have hs : ((d.Remove s).2.Remove s).2.sum = (d.Remove s).2.sum := by
      rw [sum_Remove, Weight_Remove, if_pos rfl, sub_zero]
    calc ((d.Remove s).2.Remove s).2
        = { p := ((d.Remove s).2.Remove s).2.p, sum := ((d.Remove s).2.Remove s).2.sum } := rfl
      _ = { p := (d.Remove s).2.p, sum := (d.Remove s).2.sum } := by rw [hp, hs]
      _ = (d.Remove s).2 := rfl
  refine ⟨hst, hret, ?_, ?_, ?_⟩
  · rw [hst]
  · intro t; rw [hst]
  · rw [hst]

/-- C17: under exact arithmetic the retry of `Pick` is never needed.  For a distribution
reached from `NewStrDistr()` by `Add` and `Remove` calls with `Sum() > 0`, for all iteration
orders and all draws in `[0,1)`, the first pass over the keys returns an item, a key of the
map with positive weight, so the message branch is not reached and `Pick` returns that item
after one pass. -/
theorem Pick_first_pass (d : StrDistr) (hr : Reachable d) (hpos : 0 < d.Sum)
    (orders : ℕ → List String) (ho : ∀ i, d.IsOrder (orders i)) (draws : ℕ → ℚ)
    (hu : ∀ i, 0 ≤ draws i ∧ draws i < 1) (passes : ℕ) :
    ∃ s, pickOnce d (orders 0) (draws 0) = some s
      ∧ s ∈ orders 0 ∧ s ∈ d.p ∧ 0 < d.Weight s
      ∧ Pick d orders draws (passes + 1) = some s := by
  have hsome := pickOnce_isSome d (Reachable_valid hr).2 hpos (orders 0) (ho 0) (draws 0)
    (hu 0).1 (hu 0).2
  obtain ⟨s, hs⟩ := Option.isSome_iff_exists.mp hsome
  have hmem : s ∈ orders 0 := pickPass_mem d _ _ s hs
  exact ⟨s, hs, hmem, mem_of_mem_order (ho 0) hmem,
    pickPass_pos d _ _ (mul_nonneg (hu 0).1 hpos.le) s hs, Pick_succ_of_some hs passes⟩

/-- Witness of C17: on the items weighted 1 and 3, visited in the order `b`, `a`, with the
draw 9/10, the first pass returns `a`. -/
theorem Pick_first_pass_witness :
    0 < oneThree.Sum
      ∧ ∃ s, pickOnce oneThree ["b", "a"] (9 / 10) = some s
          ∧ s ∈ ["b", "a"] ∧ s ∈ oneThree.p ∧ 0 < oneThree.Weight s
          ∧ Pick oneThree (fun _ => ["b", "a"]) (fun _ => 9 / 10) (0 + 1) = some s :=
  ⟨by decide!,
    Pick_first_pass oneThree ⟨[Call.add "a" 1, Call.add "b" 3], rfl⟩ (by decide!)
      (fun _ => ["b", "a"]) (fun _ => show oneThree.IsOrder ["b", "a"] by decide)
      (fun _ => 9 / 10) (fun _ => by norm_num) 0⟩

theorem AddM_run (d : StrDistr) (s : String) (f : ℚ) :
    (AddM s f).run d = ((), d.Add s f) :=
  rfl

theorem RemoveM_run (d : StrDistr) (s : String) : (RemoveM s).run d = d.Remove s :=
  rfl

theorem WeightM_run (d : StrDistr) (s : String) : (WeightM s).run d = (d.Weight s, d) :=
  rfl

theorem SumM_run (d : StrDistr) : SumM.run d = (d.Sum, d) :=
  rfl

theorem appendKeysM_run (d : StrDistr) (order res : List String) :
    (appendKeysM order res).run d = (order.foldl (fun res s => res ++ [s]) res, d) := by
  induction order generalizing res with
  | nil => rfl
  | cons a rest ih => exact ih _

theorem StringsM_run (d : StrDistr) (order : List String) :
    (StringsM order).run d = (d.Strings order, d) :=
  appendKeysM_run d order _

theorem pickPassM_run (d : StrDistr) (l : List String) (r : ℚ) :
    (pickPassM l r).run d = (pickPass d l r, d) := by
  induction l generalizing r with
  | nil => rfl
  | cons a rest ih =>
    by_cases h : r - index d.p a < 0
    · simp only [pickPass, if_pos h]
      show (if r - index d.p a < 0 then (pure (some a) : StateM StrDistr (Option String))
          else pickPassM rest (r - index d.p a)).run d = _
      rw [if_pos h]; rfl
    · simp only [pickPass, if_neg h]
      show (if r - index d.p a < 0 then (pure (some a) : StateM StrDistr (Option String))
          else pickPassM rest (r - index d.p a)).run d = _
      rw [if_neg h]; exact ih _

theorem pickOnceM_run (d : StrDistr) (order : List String) (u : ℚ) :
    (pickOnceM order u).run d = (pickOnce d order u, d) :=
  pickPassM_run d order _

theorem PickM_run (d : StrDistr) (orders : ℕ → List String) (draws : ℕ → ℚ) (passes : ℕ) :
    (PickM orders draws passes).run d = (Pick d orders draws passes, d) := by
  induction passes generalizing orders draws with
  | zero => rfl
  | succ n ih =>
    have h1 := pickOnceM_run d (orders 0) (draws 0)
    cases h : pickOnce d (orders 0) (draws 0) with
    | some t =>
      rw [h] at h1
      simp only [Pick, h]
      show (pickOnceM (orders 0) (draws 0) >>= fun x => match x with
        | some str => pure (some str)
        | none => PickM (fun i => orders (i + 1)) (fun i => draws (i + 1)) n).run d = _
      rw [StateT.run_bind, h1]; rfl
    | none =>
      rw [h] at h1
      simp only [Pick, h]
      show (pickOnceM (orders 0) (draws 0) >>= fun x => match x with
        | some str => pure (some str)
        | none => PickM (fun i => orders (i + 1)) (fun i => draws (i + 1)) n).run d = _
      rw [StateT.run_bind, h1]; exact ih _ _

/-- C18: `Add` and `Remove` touch only the named key, and the other methods touch nothing.
For `s ≠ t`, `Add(s, f)` and `Remove(s)` leave the binding of `t` as it was: the same
`Weight(t)` and the same presence or absence of `t` in the map.  Run as state transformers
on the receiver, the bodies of `Add` and `Remove` end in the states `d.Add s f` and
`(d.Remove s).2`, while the bodies of `Weight`, `Sum`, `Strings` and `Pick` return their
value and end in the state `d` they started from: map and sum unchanged. -/
theorem Add_Remove_frame (d : StrDistr) (s t : String) (f : ℚ) (h : s ≠ t) :
    ((d.Add s f).Weight t = d.Weight t ∧ (t ∈ (d.Add s f).p ↔ t ∈ d.p))
      ∧ ((d.Remove s).2.Weight t = d.Weight t ∧ (t ∈ (d.Remove s).2.p ↔ t ∈ d.p))
      ∧ ((AddM s f).run d = ((), d.Add s f) ∧ (RemoveM s).run d = d.Remove s)
      ∧ (∀ k, (WeightM k).run d = (d.Weight k, d))
      ∧ SumM.run d = (d.Sum, d)
      ∧ (∀ order, (StringsM order).run d = (d.Strings order, d))
      ∧ (∀ orders draws passes,
          (PickM orders draws passes).run d = (d.Pick orders draws passes, d)) := by
  have hts : ¬ t = s := fun e => h e.symm
  refine ⟨⟨?_, ?_⟩, ⟨?_, ?_⟩, ⟨AddM_run d s f, RemoveM_run d s⟩, WeightM_run d, SumM_run d,
    StringsM_run d, PickM_run d⟩
  · rw [Weight_Add, if_neg hts]
  · rw [← Finmap.lookup_isSome, ← Finmap.lookup_isSome, lookup_Add_of_ne d s t f h]
  · rw [Weight_Remove, if_neg hts]
  · rw [← Finmap.lookup_isSome, ← Finmap.lookup_isSome, lookup_Remove_of_ne d s t h]

/-- Witness of C18: adding to `b` or removing `b` leaves the key `a` of weight 1 in place,
and running the body of `Pick` on the items weighted 1 and 3 returns `a` and leaves the
distribution as it was. -/
theorem Add_Remove_frame_witness :
    "b" ≠ "a"
      ∧ ((NewStrDistr.Add "a" 1).Add "b" 3).Weight "a" = (NewStrDistr.Add "a" 1).Weight "a"
      ∧ (((NewStrDistr.Add "a" 1).Remove "b").2.Weight "a" = (NewStrDistr.Add "a" 1).Weight "a")
      ∧ (PickM (fun _ => ["b", "a"]) (fun _ => 9 / 10) 1).run (NewStrDistr.Add "a" 1)
          = ((NewStrDistr.Add "a" 1).Pick (fun _ => ["b", "a"]) (fun _ => 9 / 10) 1,
              NewStrDistr.Add "a" 1) := by
  have h := Add_Remove_frame (NewStrDistr.Add "a" 1) "b" "a" 3 (by decide)
  exact ⟨by decide, h.1.1, h.2.1.1, h.2.2.2.2.2.2 _ _ _⟩

/-- C19: `Add` followed by `Remove` is a round trip on a fresh key.  When `s` is not a key
of `d`, `Remove(s)` after `Add(s, f)` returns `max(f, 0)` and leaves the distribution
exactly as it was before the `Add`: the same map (same keys, same weights) and the same
`Sum()`. -/
theorem Add_Remove_roundtrip (d : StrDistr) (s : String) (f : ℚ) (hs : s ∉ d.p) :
    ((d.Add s f).Remove s).1 = max f 0 ∧ ((d.Add s f).Remove s).2 = d := by
  have hw : d.Weight s = 0 := Weight_of_not_mem hs
  have hret : ((d.Add s f).Remove s).1 = max f 0 := by
    show (d.Add s f).Weight s = max f 0
    rw [Weight_Add, if_pos rfl, hw, zero_add]
  refine ⟨hret, ?_⟩
  have hp : ((d.Add s f).Remove s).2.p = d.p := erase_insert_of_not_mem d.p s _ hs
  have hsum : ((d.Add s f).Remove s).2.sum = d.sum := by
    rw [sum_Remove, sum_Add, Weight_Add, if_pos rfl, hw, zero_add, add_sub_cancel_right]
  calc ((d.Add s f).Remove s).2
      = { p := ((d.Add s f).Remove s).2.p, sum := ((d.Add s f).Remove s).2.sum } := rfl
    _ = { p := d.p, sum := d.sum } := by rw [hp, hsum]
    _ = d := rfl

/-- Witness of C19: `b` is not a key of the distribution holding `a`; adding it with
weight 3 and removing it returns 3 and gives the distribution back. -/
theorem Add_Remove_roundtrip_witness :
    "b" ∉ (NewStrDistr.Add "a" 1).p
      ∧ (((NewStrDistr.Add "a" 1).Add "b" 3).Remove "b").1 = max 3 0
      ∧ (((NewStrDistr.Add "a" 1).Add "b" 3).Remove "b").2 = NewStrDistr.Add "a" 1 :=
  ⟨by decide, Add_Remove_roundtrip (NewStrDistr.Add "a" 1) "b" 3 (by decide)⟩

/-! ## The presets -/

/-- C16: the presets built by `init()`.  The keys of `uniformVowels` are exactly `a, e, i,
o, u, y`, the keys of `uniformConsonants` are exactly the other 20 lowercase letters, the
two key sets are disjoint and together are exactly `a` .. `z`; every uniform key has
weight exactly 1, so the sums are 6 and 20.  The english presets have the same vowel keys
and the same consonant keys, each with a positive weight. -/
theorem presets :
    uniformVowels.p.keys = {"a", "e", "i", "o", "u", "y"}
      ∧ uniformConsonants.p.keys = lowercase \ {"a", "e", "i", "o", "u", "y"}
      ∧ lowercase.card = 26
      ∧ uniformConsonants.p.keys.card = 20
      ∧ Disjoint uniformVowels.p.keys uniformConsonants.p.keys
      ∧ uniformVowels.p.keys ∪ uniformConsonants.p.keys = lowercase
      ∧ (∀ k ∈ uniformVowels.p.keys, uniformVowels.Weight k = 1)
      ∧ (∀ k ∈ uniformConsonants.p.keys, uniformConsonants.Weight k = 1)
      ∧ uniformVowels.Sum = 6
      ∧ uniformConsonants.Sum = 20
      ∧ englishVowels.p.keys = uniformVowels.p.keys
      ∧ englishConsonants.p.keys = uniformConsonants.p.keys
      ∧ (∀ k ∈ englishVowels.p.keys, 0 < englishVowels.Weight k)
      ∧ (∀ k ∈ englishConsonants.p.keys, 0 < englishConsonants.Weight k) := by
  refine ⟨by decide, by decide, by decide, by decide, by decide, by decide, by decide!,
    by decide!, by decide!, by decide!, by decide, by decide, by decide!, by decide!⟩

/-! ## The generation loop -/

theorem join_cons (a : String) (l : List String) :
    String.join (a :: l) = a ++ String.join l := by
  apply String.ext
  simp [String.data_join]

theorem join_nil : String.join [] = "" :=
  rfl

theorem pickAt_of_some {rnd : Rand} {d : StrDistr} {n : ℕ} {s : String}
    (h : d.pickOnce (rnd.order n d) (rnd.draw n) = some s) (passes : ℕ) :
    pickAt rnd d (passes + 1) n = some (s, n + 1) := by
  simp only [pickAt, h]

theorem pickAt_none_of_zero (rnd : Rand) (d : StrDistr) (hz : ∀ k, index d.p k = 0)
    (hs : d.sum = 0) (passes n : ℕ) : pickAt rnd d passes n = none := by
  induction passes generalizing n with
  | zero => rfl
  | succ m ih =>
    have h1 : d.pickOnce (rnd.order n d) (rnd.draw n) = none := by
      unfold pickOnce
      rw [hs, mul_zero]
      exact pickPass_none_of_zero d hz _ 0 (le_refl 0)
    simp only [pickAt, h1]
    exact ih _

theorem pickAt_mem (rnd : Rand) (hr : rnd.Fair) (d : StrDistr) (passes n : ℕ) (s : String)
    (n' : ℕ) (h : pickAt rnd d passes n = some (s, n')) : s ∈ d.p := by
  induction passes generalizing n with
  | zero => simp [pickAt] at h
  | succ m ih =>
    simp only [pickAt] at h
    cases h1 : d.pickOnce (rnd.order n d) (rnd.draw n) with
    | some t =>
      rw [h1] at h
      simp only [Option.some.injEq, Prod.mk.injEq] at h
      rw [← h.1]
      exact mem_of_mem_order (hr.2 n d) (pickPass_mem d _ _ t h1)
    | none =>
      rw [h1] at h
      exact ih _ h

theorem pickAt_samplable (rnd : Rand) (hr : rnd.Fair) (d : StrDistr) (hd : d.Samplable)
    (passes n : ℕ) :
    ∃ s, pickAt rnd d (passes + 1) n = some (s, n + 1) ∧ s ∈ d.p ∧ 0 < index d.p s := by
  have hsome := pickOnce_isSome d hd.2.1 hd.2.2 (rnd.order n d) (hr.2 n d) (rnd.draw n)
    (hr.1 n).1 (hr.1 n).2
  obtain ⟨s, hs⟩ := Option.isSome_iff_exists.mp hsome
  refine ⟨s, pickAt_of_some hs passes, ?_, ?_⟩
  · exact mem_of_mem_order (hr.2 n d) (pickPass_mem d _ _ s hs)
  · exact pickPass_pos d _ _ (mul_nonneg (hr.1 n).1 hd.2.2.le) s hs

theorem Single_zero {d : StrDistr} {k : String} (h : d.Single k) (t : String) (ht : t ≠ k) :
    index d.p t = 0 := by
  by_cases hm : t ∈ d.p.keys
  · exact h.2.2 t hm ht
  · exact index_of_not_mem (fun hk => hm (Finmap.mem_keys.mpr hk))

theorem Single_mem {d : StrDistr} {k : String} (h : d.Single k) : k ∈ d.p.keys := by
  by_contra hn
  have := @index_of_not_mem d.p k (fun hm => hn (Finmap.mem_keys.mpr hm))
  linarith [h.2.1]

theorem Single_sum {d : StrDistr} {k : String} (h : d.Single k) : d.sum = index d.p k := by
  have hs := h.1
  unfold SumInv storedSum at hs
  rw [hs]
  exact Finset.sum_eq_single_of_mem k (Single_mem h) (fun t ht hne => h.2.2 t ht hne)

theorem pickAt_single (rnd : Rand) (hr : rnd.Fair) (d : StrDistr) (k : String)
    (hd : d.Single k) (passes n : ℕ) : pickAt rnd d (passes + 1) n = some (k, n + 1) := by
  apply pickAt_of_some
  unfold pickOnce
  have hko : k ∈ rnd.order n d := by
    have hm := Single_mem hd
    rw [← (hr.2 n d).2] at hm
    exact List.mem_toFinset.mp hm
  apply pickPass_single d k (Single_zero hd) _ hko
  · rw [Single_sum hd]; exact mul_nonneg (hr.1 n).1 hd.2.1.le
  · rw [Single_sum hd]
    nlinarith [(hr.1 n).2, hd.2.1]

theorem writeSyllable_single (cfg : Config) (rnd : Rand) (hr : rnd.Fair) (V C : String)
    (hv : cfg.distrVowels.Single V) (hc : cfg.distrConsonants.Single C) (passes : ℕ)
    (cs : List Char) (hcs : ∀ c ∈ cs, c = 'v' ∨ c = 'c') (buf : String) (n : ℕ) :
    writeSyllable cfg rnd (passes + 1) cs buf n
      = .ok (buf ++ String.join (cs.map (fun c => if c = 'v' then V else if c = 'c' then C
          else String.singleton c))) (n + cs.length) := by
  induction cs generalizing buf n with
  | nil => simp [writeSyllable, join_nil]
  | cons c rest ih =>
    have hrest : ∀ c ∈ rest, c = 'v' ∨ c = 'c' := fun x hx => hcs x (List.mem_cons_of_mem _ hx)
    rw [List.map_cons, join_cons, List.length_cons, ← String.append_assoc]
    rcases hcs c (List.mem_cons_self _ _) with h | h
    · subst h
      have hl : letterClass cfg 'v' = some cfg.distrVowels := by simp [letterClass]
      simp only [writeSyllable, hl, pickAt_single rnd hr _ V hv passes n]
      rw [ih hrest]
      simp [Nat.add_assoc, Nat.add_comm 1]
    · subst h
      have hl : letterClass cfg 'c' = some cfg.distrConsonants := by simp [letterClass]
      simp only [writeSyllable, hl, pickAt_single rnd hr _ C hc passes n]
      rw [ih hrest]
      simp [Nat.add_assoc, Nat.add_comm 1]

theorem writeSyllables_single (cfg : Config) (rnd : Rand) (hr : rnd.Fair) (V C S : String)
    (hv : cfg.distrVowels.Single V) (hc : cfg.distrConsonants.Single C)
    (hs : cfg.distrSyllables.Single S) (hS : ∀ c ∈ S.data, c = 'v' ∨ c = 'c') (passes : ℕ)
    (k : ℕ) (buf : String) (n : ℕ) :
    writeSyllables cfg rnd (passes + 1) k buf n
      = .ok (buf ++ String.join (List.replicate k (substitute S V C)))
          (n + k * (1 + S.length)) := by
  induction k generalizing buf n with
  | zero => simp [writeSyllables, join_nil]
  | succ k ih =>
    simp only [writeSyllables, pickAt_single rnd hr _ S hs passes n,
      writeSyllable_single cfg rnd hr V C hv hc passes S.data hS]
    rw [ih, List.replicate_succ, join_cons, ← String.append_assoc]
    have e : n + 1 + S.data.length + k * (1 + S.length) = n + (k + 1) * (1 + S.length) := by
      have : S.data.length = S.length := rfl
      rw [this]; ring
    rw [e]
    rfl

/-- C11, amended: end-to-end determinism for singleton distributions in exact arithmetic
(finite weights, no rounding).  When vowels, consonants, shapes and counts each satisfy the
sum invariant and have a single positive-weight item, `V`, `C`, `S` and a key that
resolves to `m ≥ 0`, and `S` is written with the symbols `v` and `c` only, then for every
random source the raw name is `S` with each `v` replaced by `V` and each `c` replaced by
`C`, repeated `m` times; every `Pick` call returns in its first pass. -/
theorem generate_single (cfg : Config) (V C S key : String) (m : ℕ)
    (hv : cfg.distrVowels.Single V) (hc : cfg.distrConsonants.Single C)
    (hs : cfg.distrSyllables.Single S) (hn : cfg.distrNumSyllales.Single key)
    (hS : ∀ c ∈ S.data, c = 'v' ∨ c = 'c') (hm : intIndex cfg.strIntCache key = (m : ℤ))
    (rnd : Rand) (hr : rnd.Fair) (passes n : ℕ) :
    generate cfg rnd (passes + 1) n
      = .ok (String.join (List.replicate m (substitute S V C)))
          (n + 1 + m * (1 + S.length)) := by
  simp only [generate, pickAt_single rnd hr _ key hn passes n, hm, Int.toNat_ofNat]
  rw [writeSyllables_single cfg rnd hr V C S hv hc hs hS passes m "" (n + 1),
    String.empty_append]

/-- Witness of the amended C11, the end-to-end example of the specification: vowels `a:1`, consonants
`b:1`, shapes `cv:1`, counts `1:1` give the raw name `ba`. -/
theorem generate_single_witness :
    sortedRand.Fair ∧ generate exampleBa sortedRand (0 + 1) 0 = .ok "ba" 4 := by
  have hr : sortedRand.Fair :=
    ⟨fun _ => ⟨le_refl 0, zero_lt_one⟩,
      fun _ d => ⟨Finset.sort_nodup _ _, Finset.sort_toFinset _ _⟩⟩
  have h := generate_single exampleBa "a" "b" "cv" "1" 1 (by decide!) (by decide!)
    (by decide!) (by decide!) (by decide) (by decide) sortedRand hr 0 0
  have e : String.join (List.replicate 1 (substitute "cv" "a" "b")) = "ba" := by decide
  rw [e] at h
  exact ⟨hr, h⟩

theorem sortedRand_Fair : sortedRand.Fair :=
  ⟨fun _ => ⟨le_refl 0, zero_lt_one⟩,
    fun _ _ => ⟨Finset.sort_nodup _ _, Finset.sort_toFinset _ _⟩⟩

theorem writeSyllable_cv (cfg : Config) (rnd : Rand) (hr : rnd.Fair)
    (hv : cfg.distrVowels.Samplable) (hc : cfg.distrConsonants.Samplable) (passes : ℕ)
    (buf : String) (n : ℕ) :
    ∃ c v, writeSyllable cfg rnd (passes + 1) ['c', 'v'] buf n = .ok (buf ++ c ++ v) (n + 2)
      ∧ (c ∈ cfg.distrConsonants.p ∧ 0 < cfg.distrConsonants.Weight c)
      ∧ (v ∈ cfg.distrVowels.p ∧ 0 < cfg.distrVowels.Weight v) := by
  obtain ⟨c, hpc, hcm, hcw⟩ := pickAt_samplable rnd hr _ hc passes n
  obtain ⟨v, hpv, hvm, hvw⟩ := pickAt_samplable rnd hr _ hv passes (n + 1)
  refine ⟨c, v, ?_, ⟨hcm, hcw⟩, ⟨hvm, hvw⟩⟩
  have hlc : letterClass cfg 'c' = some cfg.distrConsonants := by simp [letterClass]
  have hlv : letterClass cfg 'v' = some cfg.distrVowels := by simp [letterClass]
  simp only [writeSyllable, hlc, hlv, hpc, hpv]

/-- C12, refuted as stated: with vowels `a:1`, consonants `b:1`, the single shape `cv` and
the single count 2, the raw name is `baba`, a string of 4 letters and not of 2. -/
theorem generate_two_cv_four_letters :
    generate exampleTwoCv sortedRand 1 0 = .ok "baba" 7 ∧ "baba".length = 4 := by
  refine ⟨by decide!, by decide⟩

/-- C12, amended: when the count distribution always yields 2 and the shape distribution
always yields `cv`, and the vowel and consonant items of positive weight are single
letters, then for every random source the raw name is a string of exactly 4 letters, two
syllables of two letters: letters 1 and 3 are consonant items and letters 2 and 4 are
vowel items. -/
theorem generate_two_cv (cfg : Config)
    (hn : cfg.distrNumSyllales.Samplable)
    (hn2 : ∀ k ∈ cfg.distrNumSyllales.p.keys,
      0 < cfg.distrNumSyllales.Weight k → intIndex cfg.strIntCache k = 2)
    (hs : cfg.distrSyllables.Samplable)
    (hscv : ∀ k ∈ cfg.distrSyllables.p.keys, 0 < cfg.distrSyllables.Weight k → k = "cv")
    (hv : cfg.distrVowels.Samplable)
    (hv1 : ∀ k ∈ cfg.distrVowels.p.keys, 0 < cfg.distrVowels.Weight k → k.length = 1)
    (hc : cfg.distrConsonants.Samplable)
    (hc1 : ∀ k ∈ cfg.distrConsonants.p.keys, 0 < cfg.distrConsonants.Weight k → k.length = 1)
    (rnd : Rand) (hr : rnd.Fair) (passes n : ℕ) :
    ∃ c₁ v₁ c₂ v₂ : String,
      generate cfg rnd (passes + 1) n = .ok (c₁ ++ v₁ ++ c₂ ++ v₂) (n + 7)
        ∧ (c₁ ++ v₁ ++ c₂ ++ v₂).length = 4
        ∧ c₁.length = 1 ∧ v₁.length = 1 ∧ c₂.length = 1 ∧ v₂.length = 1
        ∧ (c₁ ∈ cfg.distrConsonants.p ∧ 0 < cfg.distrConsonants.Weight c₁)
        ∧ (v₁ ∈ cfg.distrVowels.p ∧ 0 < cfg.distrVowels.Weight v₁)
        ∧ (c₂ ∈ cfg.distrConsonants.p ∧ 0 < cfg.distrConsonants.Weight c₂)
        ∧ (v₂ ∈ cfg.distrVowels.p ∧ 0 < cfg.distrVowels.Weight v₂) := by
  obtain ⟨key, hpk, hkm, hkw⟩ := pickAt_samplable rnd hr _ hn passes n
  have hk2 := hn2 key (Finmap.mem_keys.mpr hkm) hkw
  obtain ⟨s₁, hp1, hm1, hw1⟩ := pickAt_samplable rnd hr _ hs passes (n + 1)
  have e1 := hscv s₁ (Finmap.mem_keys.mpr hm1) hw1
  obtain ⟨c₁, v₁, hw, hc₁, hv₁⟩ := writeSyllable_cv cfg rnd hr hv hc passes "" (n + 1 + 1)
  obtain ⟨s₂, hp2, hm2, hw2⟩ := pickAt_samplable rnd hr _ hs passes (n + 1 + 1 + 2)
  have e2 := hscv s₂ (Finmap.mem_keys.mpr hm2) hw2
  rw [String.empty_append] at hw
  obtain ⟨c₂, v₂, hw', hc₂, hv₂⟩ :=
    writeSyllable_cv cfg rnd hr hv hc passes (c₁ ++ v₁) (n + 1 + 1 + 2 + 1)
  subst e1 e2
  have hl1 := hc1 c₁ (Finmap.mem_keys.mpr hc₁.1) hc₁.2
  have hl2 := hv1 v₁ (Finmap.mem_keys.mpr hv₁.1) hv₁.2
  have hl3 := hc1 c₂ (Finmap.mem_keys.mpr hc₂.1) hc₂.2
  have hl4 := hv1 v₂ (Finmap.mem_keys.mpr hv₂.1) hv₂.2
  have hdata : "cv".data = ['c', 'v'] := rfl
  refine ⟨c₁, v₁, c₂, v₂, ?_, ?_, hl1, hl2, hl3, hl4, hc₁, hv₁, hc₂, hv₂⟩
  · have h2nat : (2 : ℤ).toNat = 1 + 1 := rfl
    simp only [generate, hpk, hk2, h2nat, writeSyllables, hp1, hdata, hw, hp2, hw']
  · simp only [String.length_append, hl1, hl2, hl3, hl4]

/-- Witness of the amended C12: vowels `a:1`, consonants `b:1`, shape `cv`, count 2. -/
theorem generate_two_cv_witness :
    ∃ c₁ v₁ c₂ v₂ : String,
      generate exampleTwoCv sortedRand (0 + 1) 0 = .ok (c₁ ++ v₁ ++ c₂ ++ v₂) (0 + 7)
        ∧ (c₁ ++ v₁ ++ c₂ ++ v₂).length = 4
        ∧ c₁.length = 1 ∧ v₁.length = 1 ∧ c₂.length = 1 ∧ v₂.length = 1
        ∧ (c₁ ∈ exampleTwoCv.distrConsonants.p ∧ 0 < exampleTwoCv.distrConsonants.Weight c₁)
        ∧ (v₁ ∈ exampleTwoCv.distrVowels.p ∧ 0 < exampleTwoCv.distrVowels.Weight v₁)
        ∧ (c₂ ∈ exampleTwoCv.distrConsonants.p ∧ 0 < exampleTwoCv.distrConsonants.Weight c₂)
        ∧ (v₂ ∈ exampleTwoCv.distrVowels.p ∧ 0 < exampleTwoCv.distrVowels.Weight v₂) :=
  generate_two_cv exampleTwoCv (by decide!) (by decide!) (by decide!) (by decide!)
    (by decide!) (by decide!) (by decide!) (by decide!) sortedRand sortedRand_Fair 0 0

theorem writeSyllable_fatal (cfg : Config) (rnd : Rand) (hr : rnd.Fair) (passes : ℕ)
    (pre : List Char) (x : Char) (post : List Char)
    (hpre : ∀ c ∈ pre, ∃ d, letterClass cfg c = some d ∧ d.Samplable)
    (hx : letterClass cfg x = none) (buf : String) (n : ℕ) :
    writeSyllable cfg rnd (passes + 1) (pre ++ x :: post) buf n = .fatal x := by
  induction pre generalizing buf n with
  | nil => simp only [List.nil_append, writeSyllable, hx]
  | cons c rest ih =>
    obtain ⟨d, hd, hsam⟩ := hpre c (List.mem_cons_self _ _)
    obtain ⟨s, hp, _, _⟩ := pickAt_samplable rnd hr d hsam passes n
    simp only [List.cons_append, writeSyllable, hd, hp]
    exact ih (fun c hc => hpre c (List.mem_cons_of_mem _ hc)) _ _

theorem letterClass_isSome (cfg : Config) (c : Char) (h : c = 'v' ∨ c = 'c' ∨ c = 'l') :
    ∃ d, letterClass cfg c = some d := by
  rcases h with h | h | h <;> subst h
  · exact ⟨cfg.distrVowels, by simp [letterClass]⟩
  · exact ⟨cfg.distrConsonants, by simp [letterClass]⟩
  · exact ⟨cfg.distrLetters, by simp [letterClass]⟩

theorem letterClass_eq_none (cfg : Config) (x : Char) (h : x ≠ 'v' ∧ x ≠ 'c' ∧ x ≠ 'l') :
    letterClass cfg x = none := by
  simp [letterClass, h.1, h.2.1, h.2.2]

theorem writeSyllable_not_fatal (cfg : Config) (rnd : Rand) (passes : ℕ) (cs : List Char)
    (hcs : ∀ c ∈ cs, c = 'v' ∨ c = 'c' ∨ c = 'l') (buf : String) (n : ℕ) (x : Char) :
    writeSyllable cfg rnd passes cs buf n ≠ .fatal x := by
  induction cs generalizing buf n with
  | nil => simp [writeSyllable]
  | cons c rest ih =>
    obtain ⟨d, hd⟩ := letterClass_isSome cfg c (hcs c (List.mem_cons_self _ _))
    simp only [writeSyllable, hd]
    cases hp : pickAt rnd d passes n with
    | none => simp
    | some r => exact ih (fun c hc => hcs c (List.mem_cons_of_mem _ hc)) _ _

theorem writeSyllables_not_fatal (cfg : Config) (rnd : Rand) (passes : ℕ)
    (hshapes : ∀ (i : ℕ) (shape : String) (i' : ℕ),
      pickAt rnd cfg.distrSyllables passes i = some (shape, i') →
      ∀ c ∈ shape.data, c = 'v' ∨ c = 'c' ∨ c = 'l')
    (k : ℕ) (buf : String) (n : ℕ) (x : Char) :
    writeSyllables cfg rnd passes k buf n ≠ .fatal x := by
  induction k generalizing buf n with
  | zero => simp [writeSyllables]
  | succ k ih =>
    cases hp : pickAt rnd cfg.distrSyllables passes n with
    | none => simp [writeSyllables, hp]
    | some r =>
      obtain ⟨shape, n'⟩ := r
      have hshape := hshapes n shape n' hp
      have hnf := writeSyllable_not_fatal cfg rnd passes shape.data hshape buf n'
      cases hw : writeSyllable cfg rnd passes shape.data buf n' with
      | ok buf' n'' =>
        simp only [writeSyllables, hp, hw]
        exact ih _ _
      | fatal c => exact absurd hw (hnf c)
      | looping => simp [writeSyllables, hp, hw]

theorem writeSyllables_fatal (cfg : Config) (rnd : Rand) (hr : rnd.Fair) (passes k : ℕ)
    (buf : String) (i : ℕ) (shape : String) (i' : ℕ) (pre : List Char) (x : Char)
    (post : List Char)
    (hp : pickAt rnd cfg.distrSyllables (passes + 1) i = some (shape, i'))
    (hdata : shape.data = pre ++ x :: post)
    (hpre : ∀ c ∈ pre, ∃ d, letterClass cfg c = some d ∧ d.Samplable)
    (hx : x ≠ 'v' ∧ x ≠ 'c' ∧ x ≠ 'l') :
    writeSyllables cfg rnd (passes + 1) (k + 1) buf i = .fatal x := by
  simp only [writeSyllables, hp, hdata,
    writeSyllable_fatal cfg rnd hr passes pre x post hpre (letterClass_eq_none cfg x hx)]

/-- C13, refuted as stated: with no vowels, the single shape `vx` and the count 1, the
count 1 and the shape `vx` are sampled and `x` is not a recognized symbol, yet generation
does not abort: the `Pick` call for the symbol `v` before it never returns, whatever the
number of passes. -/
theorem generate_stuck_before_symbol :
    pickAt sortedRand exampleStuck.distrNumSyllales 1 0 = some ("1", 1)
      ∧ intIndex exampleStuck.strIntCache "1" = 1
      ∧ pickAt sortedRand exampleStuck.distrSyllables 1 1 = some ("vx", 2)
      ∧ letterClass exampleStuck 'x' = none
      ∧ ¬ ∃ passes, generate exampleStuck sortedRand passes 0 ≠ .looping := by
  refine ⟨by decide!, by decide, by decide!, by decide, ?_⟩
  rintro ⟨passes, h⟩
  apply h
  cases passes with
  | zero => rfl
  | succ p =>
    have h1 := pickAt_single sortedRand sortedRand_Fair exampleStuck.distrNumSyllales "1"
      (by decide!) p 0
    have h2 := pickAt_single sortedRand sortedRand_Fair exampleStuck.distrSyllables "vx"
      (by decide!) p (0 + 1)
    have h3 : intIndex exampleStuck.strIntCache "1" = 1 := by decide
    have h4 : (1 : ℤ).toNat = 0 + 1 := rfl
    have h5 : "vx".data = ['v', 'x'] := rfl
    have h6 : letterClass exampleStuck 'v' = some NewStrDistr := by decide
    have h7 := pickAt_none_of_zero sortedRand NewStrDistr index_empty rfl (p + 1) (0 + 1 + 1)
    simp only [generate, h1, h3, h4, writeSyllables, h2, h5, writeSyllable, h6, h7]

/-- C13, amended: an unrecognized shape symbol is fatal once it is reached.  At any
iteration of the syllable loop, and so for the first shape when the sampled count is at
least 1, if the sampled shape has a character other than `v`, `c`, `l` and the
distributions selected by the symbols before the first such character can be sampled
(non-negative weights, sum invariant, positive total), generation aborts at that character
and produces no name.  Conversely, if every shape that the random source samples is
written with `v`, `c`, `l` only (as it is when every key of the shape distribution is), the
error branch is never taken. -/
theorem unrecognized_symbol (cfg : Config) (rnd : Rand) (hr : rnd.Fair) (passes n : ℕ) :
    (∀ (k : ℕ) (buf : String) (i : ℕ) (shape : String) (i' : ℕ) (pre : List Char) (x : Char)
        (post : List Char),
        pickAt rnd cfg.distrSyllables (passes + 1) i = some (shape, i') →
        shape.data = pre ++ x :: post →
        (∀ c ∈ pre, ∃ d, letterClass cfg c = some d ∧ d.Samplable) →
        (x ≠ 'v' ∧ x ≠ 'c' ∧ x ≠ 'l') →
        writeSyllables cfg rnd (passes + 1) (k + 1) buf i = .fatal x)
      ∧ (∀ (key : String) (n₁ : ℕ) (shape : String) (n₂ : ℕ) (pre : List Char) (x : Char)
        (post : List Char),
        pickAt rnd cfg.distrNumSyllales (passes + 1) n = some (key, n₁) →
        1 ≤ intIndex cfg.strIntCache key →
        pickAt rnd cfg.distrSyllables (passes + 1) n₁ = some (shape, n₂) →
        shape.data = pre ++ x :: post →
        (∀ c ∈ pre, ∃ d, letterClass cfg c = some d ∧ d.Samplable) →
        (x ≠ 'v' ∧ x ≠ 'c' ∧ x ≠ 'l') →
        generate cfg rnd (passes + 1) n = .fatal x)
      ∧ ((∀ (i : ℕ) (shape : String) (i' : ℕ),
          pickAt rnd cfg.distrSyllables passes i = some (shape, i') →
          ∀ c ∈ shape.data, c = 'v' ∨ c = 'c' ∨ c = 'l') →
        ∀ x, generate cfg rnd passes n ≠ .fatal x)
      ∧ ((∀ s ∈ cfg.distrSyllables.p, ∀ c ∈ s.data, c = 'v' ∨ c = 'c' ∨ c = 'l') →
        ∀ x, generate cfg rnd passes n ≠ .fatal x) := by
  have hconv : (∀ (i : ℕ) (shape : String) (i' : ℕ),
      pickAt rnd cfg.distrSyllables passes i = some (shape, i') →
      ∀ c ∈ shape.data, c = 'v' ∨ c = 'c' ∨ c = 'l') →
      ∀ x, generate cfg rnd passes n ≠ .fatal x := by
    intro hshapes x
    unfold generate
    cases hp : pickAt rnd cfg.distrNumSyllales passes n with
    | none => simp
    | some r => exact writeSyllables_not_fatal cfg rnd passes hshapes _ _ _ x
  refine ⟨?_, ?_, hconv, ?_⟩
  · intro k buf i shape i' pre x post hp hdata hpre hx
    exact writeSyllables_fatal cfg rnd hr passes k buf i shape i' pre x post hp hdata hpre hx
  · intro key n₁ shape n₂ pre x post hk hge hp hdata hpre hx
    obtain ⟨k, hk1⟩ : ∃ k, (intIndex cfg.strIntCache key).toNat = k + 1 :=
      ⟨(intIndex cfg.strIntCache key).toNat - 1, by omega⟩
    simp only [generate, hk, hk1]
    exact writeSyllables_fatal cfg rnd hr passes k "" n₁ shape n₂ pre x post hp hdata hpre hx
  · intro hkeys
    exact hconv (fun i shape i' hp => hkeys shape (pickAt_mem rnd hr _ passes i shape i' hp))

/-- Witness of the amended C13: with vowels `a:1`, consonants `b:1`, count 1 and the shape
`cvx`, generation aborts at `x`; with the shape `cv` of the end-to-end example it never
aborts. -/
theorem unrecognized_symbol_witness :
    sortedRand.Fair
      ∧ generate exampleCvx sortedRand (0 + 1) 0 = .fatal 'x'
      ∧ ∀ x, generate exampleBa sortedRand 1 0 ≠ .fatal x := by
  refine ⟨sortedRand_Fair, ?_, ?_⟩
  · refine (unrecognized_symbol exampleCvx sortedRand sortedRand_Fair 0 0).2.1 "1" 1 "cvx" 2
      ['c', 'v'] 'x' [] (by decide!) (by decide) (by decide!) rfl ?_ (by decide)
    intro c hc
    rcases List.mem_cons.mp hc with h | h
    · exact ⟨exampleCvx.distrConsonants, by rw [h]; rfl, by decide!⟩
    · rcases List.mem_cons.mp h with h | h
      · exact ⟨exampleCvx.distrVowels, by rw [h]; rfl, by decide!⟩
      · simp at h
  · exact (unrecognized_symbol exampleBa sortedRand sortedRand_Fair 1 0).2.2.2 (by decide)

/-- C20: a non-positive syllable count silently yields an empty name.  Whenever the sampled
count key resolves to an integer `≤ 0`, the generation loop samples nothing more (the pass
count stays where the count sample left it), takes no error branch, and the raw name is
the empty string.  A key missing from `strIntCache` resolves to 0, and the count loop of
`parseFlags` accepts every key that `strconv.Atoi` parses, whatever its sign. -/
theorem generate_nonpositive_count (cfg : Config) (rnd : Rand) (passes n : ℕ) (key : String)
    (n' : ℕ) (hpick : pickAt rnd cfg.distrNumSyllales passes n = some (key, n'))
    (hle : intIndex cfg.strIntCache key ≤ 0) :
    generate cfg rnd passes n = .ok "" n'
      ∧ (∀ k, k ∉ cfg.strIntCache → intIndex cfg.strIntCache k = 0)
      ∧ (∀ (atoi : String → Option ℤ) (val : ℤ) (w : ℚ), atoi key = some val →
          parseCounts atoi [(key, w)] (NewStrDistr, ∅)
            = some (NewStrDistr.Add key w, (∅ : IntCache).insert key val)) := by
  refine ⟨?_, ?_, ?_⟩
  · simp only [generate, hpick, Int.toNat_eq_zero.mpr hle, writeSyllables]
  · intro k hk
    unfold intIndex
    rw [Finmap.lookup_eq_none.mpr hk]
    rfl
  · intro atoi val w h
    simp only [parseCounts, h]

/-- Witness of C20: with the single count key `-1`, which resolves to -1, the raw name is
empty and only the pass of the count sample has been run. -/
theorem generate_nonpositive_count_witness :
    pickAt sortedRand exampleMinusOne.distrNumSyllales 1 0 = some ("-1", 1)
      ∧ intIndex exampleMinusOne.strIntCache "-1" ≤ 0
      ∧ generate exampleMinusOne sortedRand 1 0 = .ok "" 1 :=
  ⟨by decide!, by decide,
    (generate_nonpositive_count exampleMinusOne sortedRand 1 0 "-1" 1 (by decide!)
      (by decide)).1⟩

end StrDistr

end Distr

namespace Binary64

/-! ## The float64 model: rounding and comparisons -/

theorem pow2_pos (e : ℤ) : 0 < pow2 e := by
  unfold pow2
  split_ifs <;> positivity

theorem round_geZero (x : ℚ) (hx : 0 ≤ x) : (round x).geZero := by
  unfold round
  by_cases h0 : x = 0
  · rw [if_pos h0]; exact le_refl (0 : ℚ)
  · have hpos : 0 < x := lt_of_le_of_ne hx (Ne.symm h0)
    rw [if_neg h0]
    simp only [if_pos hpos]
    split_ifs
    · exact True.intro
    · exact mul_nonneg (Nat.cast_nonneg _) (pow2_pos _).le

theorem geZero_not_ltZero (x : F64) (h : x.geZero) : ¬ x.ltZero := by
  cases x with
  | fin q => exact not_lt.mpr h
  | posInf => exact fun hf => hf
  | negInf => exact fun _ => h
  | nan => exact fun hf => hf

theorem not_ltZero_cases (x : F64) (h : ¬ x.ltZero) : x.geZero ∨ x = .nan := by
  cases x with
  | fin q => exact Or.inl (not_lt.mp h)
  | posInf => exact Or.inl True.intro
  | negInf => exact absurd True.intro h
  | nan => exact Or.inr rfl

theorem gtZero_geZero (x : F64) (h : x.gtZero) : x.geZero := by
  cases x with
  | fin q => exact le_of_lt h
  | posInf => exact True.intro
  | negInf => exact h
  | nan => exact h

theorem add_geZero (x y : F64) (hx : x.geZero) (hy : y.geZero) : (F64.add x y).geZero := by
  cases x with
  | fin a =>
    cases y with
    | fin b => exact round_geZero _ (add_nonneg hx hy)
    | posInf => exact True.intro
    | negInf => exact hy.elim
    | nan => exact hy.elim
  | posInf =>
    cases y with
    | fin b => exact True.intro
    | posInf => exact True.intro
    | negInf => exact hy.elim
    | nan => exact hy.elim
  | negInf => exact hx.elim
  | nan => exact hx.elim

theorem max_zero_geZero (f : F64) (hf : f ≠ .nan) : (F64.max f (.fin 0)).geZero := by
  cases f with
  | fin q => exact le_max_right q 0
  | posInf => exact True.intro
  | negInf => exact le_refl (0 : ℚ)
  | nan => exact absurd rfl hf

theorem mul_draw_geZero (u : ℚ) (hu : 0 ≤ u) (s : F64) (hs : s.geZero) :
    (F64.mul (.fin u) s).geZero ∨ F64.mul (.fin u) s = .nan := by
  cases s with
  | fin q => exact Or.inl (round_geZero _ (mul_nonneg hu hs))
  | posInf =>
    by_cases h0 : u = 0
    · right; simp [F64.mul, h0]
    · left
      have hpos : 0 < u := lt_of_le_of_ne hu (Ne.symm h0)
      simp [F64.mul, h0, hpos, F64.geZero]
  | negInf => exact hs.elim
  | nan => exact hs.elim

theorem sub_ltZero (r p : F64) (hr : r.geZero ∨ r = .nan) (h : (F64.sub r p).ltZero) :
    p.gtZero := by
  rcases hr with hr | hr
  · cases r with
    | fin a =>
      cases p with
      | fin b =>
        have hlt : a + -b < 0 := by
          by_contra hn
          exact geZero_not_ltZero _ (round_geZero _ (not_lt.mp hn)) h
        have ha : 0 ≤ a := hr
        show 0 < b
        linarith
      | posInf => exact True.intro
      | negInf => exact h.elim
      | nan => exact h.elim
    | posInf =>
      cases p with
      | fin b => exact h.elim
      | posInf => exact h.elim
      | negInf => exact h.elim
      | nan => exact h.elim
    | negInf => exact hr.elim
    | nan => exact hr.elim
  · subst hr
    cases p <;> exact h.elim

/-! ## The float64 model: `Add`, `Remove`, `Pick` -/

theorem index_insert_f64 (m : WeightMap) (s t : String) (v : F64) :
    index (m.insert s v) t = if t = s then v else index m t := by
  unfold index
  split_ifs with h
  · subst h; rw [Finmap.lookup_insert]; rfl
  · rw [Finmap.lookup_insert_of_ne _ h]

theorem index_erase_f64 (m : WeightMap) (s t : String) :
    index (m.erase s) t = if t = s then .fin 0 else index m t := by
  unfold index
  split_ifs with h
  · subst h; rw [Finmap.lookup_erase]; rfl
  · rw [Finmap.lookup_erase_ne h]

theorem Add_geZero_f64 (d : StrDistr) (hd : ∀ k, (index d.p k).geZero) (s : String) (f : F64)
    (hf : f ≠ .nan) (k : String) : (index (d.Add s f).p k).geZero := by
  show (index (d.p.insert s (F64.add (index d.p s) (F64.max f (.fin 0)))) k).geZero
  rw [index_insert_f64]
  split_ifs
  · exact add_geZero _ _ (hd s) (max_zero_geZero f hf)
  · exact hd k

theorem Remove_geZero_f64 (d : StrDistr) (hd : ∀ k, (index d.p k).geZero) (s : String)
    (k : String) : (index (d.Remove s).2.p k).geZero := by
  show (index (d.p.erase s) k).geZero
  rw [index_erase_f64]
  split_ifs
  · exact le_refl (0 : ℚ)
  · exact hd k

theorem run_geZero_f64 (calls : List Call) (hnan : ∀ s, Call.add s .nan ∉ calls)
    (d : StrDistr) (hd : ∀ k, (index d.p k).geZero) (k : String) :
    (index (run calls d).p k).geZero := by
  induction calls generalizing d with
  | nil => exact hd k
  | cons c rest ih =>
    have hrest : ∀ s, Call.add s .nan ∉ rest := fun s hm => hnan s (List.mem_cons_of_mem _ hm)
    have hstep : run (c :: rest) d = run rest (c.apply d) := rfl
    rw [hstep]
    apply ih hrest
    cases c with
    | add s f =>
      have hf : f ≠ .nan := by
        intro e
        exact hnan s (e ▸ List.mem_cons_self _ _)
      exact Add_geZero_f64 d hd s f hf
    | remove s => exact Remove_geZero_f64 d hd s

theorem pickPass_sound_f64 (d : StrDistr) (l : List String) (r : F64)
    (hr : r.geZero ∨ r = .nan) (s : String) (h : d.pickPass l r = some s) :
    s ∈ l ∧ (index d.p s).gtZero := by
  induction l generalizing r with
  | nil => simp [StrDistr.pickPass] at h
  | cons a rest ih =>
    simp only [StrDistr.pickPass] at h
    split_ifs at h with hlt
    · simp only [Option.some.injEq] at h
      subst h
      exact ⟨List.mem_cons_self _ _, sub_ltZero r _ hr hlt⟩
    · obtain ⟨hm, hw⟩ := ih _ (not_ltZero_cases _ hlt) h
      exact ⟨List.mem_cons_of_mem _ hm, hw⟩

theorem Pick_sound_f64 (d : StrDistr) (hs : d.sum.geZero) (orders : ℕ → List String)
    (ho : ∀ i, d.IsOrder (orders i)) (draws : ℕ → ℚ) (hu : ∀ i, 0 ≤ draws i) (passes : ℕ)
    (s : String) (h : d.Pick orders draws passes = some s) :
    s ∈ d.p ∧ (index d.p s).gtZero := by
  induction passes generalizing orders draws with
  | zero => simp [StrDistr.Pick] at h
  | succ n ih =>
    simp only [StrDistr.Pick] at h
    cases h1 : d.pickOnce (orders 0) (draws 0) with
    | some t =>
      rw [h1] at h
      simp only [Option.some.injEq] at h
      subst h
      unfold StrDistr.pickOnce at h1
      obtain ⟨hm, hw⟩ := pickPass_sound_f64 d _ _ (mul_draw_geZero _ (hu 0) _ hs) t h1
      refine ⟨?_, hw⟩
      rw [← Finmap.mem_keys, ← (ho 0).2]
      exact List.mem_toFinset.mpr hm
    | none =>
      rw [h1] at h
      exact ih _ (fun i => ho (i + 1)) _ (fun i => hu (i + 1)) h

theorem Pick_const_none_f64 (d : StrDistr) (order : List String) (u : ℚ)
    (h : d.pickOnce order u = none) (passes : ℕ) :
    d.Pick (fun _ => order) (fun _ => u) passes = none := by
  induction passes with
  | zero => rfl
  | succ n ih => simp only [StrDistr.Pick, h]; exact ih

theorem pickAt_of_some_f64 {rnd : Rand} {d : StrDistr} {n : ℕ} {s : String}
    (h : d.pickOnce (rnd.order n d) (rnd.draw n) = some s) (passes : ℕ) :
    pickAt rnd d (passes + 1) n = some (s, n + 1) := by
  simp only [pickAt, h]

theorem pickAt_none_f64 (rnd : Rand) (d : StrDistr)
    (h : ∀ n, d.pickOnce (rnd.order n d) (rnd.draw n) = none) (passes n : ℕ) :
    pickAt rnd d passes n = none := by
  induction passes generalizing n with
  | zero => rfl
  | succ m ih => simp only [pickAt, h n]; exact ih _

end Binary64

namespace Binary64

/-! ## The float64 model: claims -/

/-- C4, refuted as stated: in float64 the product `u * Sum()` is rounded.  For the items
`a:2`, `b:5` visited in the order `a`, `b` and the draw `u = 2573485501354569 / 2^53`, the
exact product `u * 7` lies in `[0, 2)`, the interval of `a`, but its float64 value is `2`,
so `r - 2` is not negative and the pass returns `b`. -/
theorem pickOnce_rounding_f64 :
    (0 ≤ nearTwoSevenths ∧ nearTwoSevenths < 1)
      ∧ twoFive.IsOrder ["a", "b"]
      ∧ twoFive.Weight "a" = .fin 2 ∧ twoFive.Weight "b" = .fin 5 ∧ twoFive.Sum = .fin 7
      ∧ (0 ≤ nearTwoSevenths * 7 ∧ nearTwoSevenths * 7 < 2)
      ∧ F64.mul (.fin nearTwoSevenths) twoFive.Sum = .fin 2
      ∧ twoFive.pickOnce ["a", "b"] nearTwoSevenths = some "b" := by
  refine ⟨by decide!, by decide, by decide!, by decide!, by decide!, by decide!, by decide!,
    by decide!⟩

/-- C5, refuted as stated: after `Add("a", math.MaxFloat64)` twice the single key `a` has
the positive weight `+Inf` and `Sum()` is `+Inf` as well, yet `Pick` never returns: `r` is
`+Inf`, `r - p` is `NaN`, and `NaN < 0` is false in every pass.  With the finite weight
`2^-1074` and the draw 3/4 the product rounds up to the weight itself, `r - p` is 0, and no
pass returns either. -/
theorem Pick_single_never_returns_f64 :
    (overflowA.p.keys = {"a"} ∧ overflowA.Weight "a" = .posInf ∧ overflowA.Sum = .posInf
        ∧ ¬ ∃ passes, overflowA.Pick (fun _ => ["a"]) (fun _ => 1 / 2) passes ≠ none)
      ∧ (tinyA.p.keys = {"a"} ∧ tinyA.Weight "a" = .fin (pow2 (-1074))
        ∧ tinyA.Sum = .fin (pow2 (-1074))
        ∧ ¬ ∃ passes, tinyA.Pick (fun _ => ["a"]) (fun _ => 3 / 4) passes ≠ none) := by
  refine ⟨⟨by decide, by decide!, by decide!, ?_⟩, ⟨by decide, by decide!, by decide!, ?_⟩⟩
  · rintro ⟨passes, h⟩
    exact h (Pick_const_none_f64 overflowA ["a"] (1 / 2) (by decide!) passes)
  · rintro ⟨passes, h⟩
    exact h (Pick_const_none_f64 tinyA ["a"] (3 / 4) (by decide!) passes)

/-- C6, refuted as stated: after `Add("z", 0)`, `Add("a", 0.1)`, `Add("b", 0.7)`,
`Remove("b")`, `Remove("a")` the only key is `z` with the stored weight 0, so every stored
weight is `≥ 0`, but `sum` has drifted to `-2^-55`; with the draw 1/2 the first pass of
`Pick` starts from a negative `r` and returns `z`, whose weight is not positive. -/
theorem Pick_returns_zero_weight_f64 :
    drifted.p.keys = {"z"}
      ∧ drifted.Weight "z" = .fin 0
      ∧ (∀ k ∈ drifted.p.keys, (drifted.Weight k).geZero)
      ∧ drifted.Sum = .fin (-(1 / 2 ^ 55))
      ∧ drifted.IsOrder ["z"]
      ∧ drifted.Pick (fun _ => ["z"]) (fun _ => 1 / 2) 1 = some "z"
      ∧ ¬ (drifted.Weight "z").gtZero := by
  refine ⟨by decide, by decide!, by decide!, by decide!, by decide, by decide!, by decide!⟩

/-- C6, amended: `Pick` never returns a zero-weight item when `Sum()` is not negative.  For
a distribution whose stored weights are all `≥ 0` and whose `Sum()` is `≥ 0`, for all
iteration orders and all draws in `[0,1)`, whatever string `Pick` returns, after any number
of passes, is a key of the map and its stored weight is strictly positive.  This holds in
float64, rounding, infinities and NaN included. -/
theorem Pick_positive_weight_f64 (d : StrDistr)
    (_hnn : ∀ k ∈ d.p.keys, (d.Weight k).geZero) (hs : d.Sum.geZero)
    (orders : ℕ → List String) (ho : ∀ i, d.IsOrder (orders i)) (draws : ℕ → ℚ)
    (hu : ∀ i, 0 ≤ draws i ∧ draws i < 1) (passes : ℕ) (s : String)
    (h : d.Pick orders draws passes = some s) :
    s ∈ d.p ∧ (d.Weight s).gtZero :=
  Pick_sound_f64 d hs orders ho draws (fun i => (hu i).1) passes s h

/-- Witness of the amended C6: with the zero-weight item `z` visited first and the draw 0,
`Pick` passes over `z` and returns `a`, a key of positive weight. -/
theorem Pick_positive_weight_f64_witness :
    zeroAndTwo.Sum.geZero
      ∧ zeroAndTwo.Pick (fun _ => ["z", "a"]) (fun _ => 0) 1 = some "a"
      ∧ "a" ∈ zeroAndTwo.p ∧ (zeroAndTwo.Weight "a").gtZero :=
  ⟨by decide!, by decide!,
    Pick_positive_weight_f64 zeroAndTwo (by decide!) (by decide!) (fun _ => ["z", "a"])
      (fun _ => show zeroAndTwo.IsOrder ["z", "a"] by decide) (fun _ => 0)
      (fun _ => by norm_num) 1 "a" (by decide!)⟩

/-- C10, refuted as stated: in float64 the sums are accumulated with rounding.  For the
vowels `a:1e16` and the consonants `b:1`, `c:1` the merged `letters` has `Sum() = 1e16`
(each `+ 1` is rounded away), while `vowels.Sum() + consonants.Sum()` is `1e16 + 2`. -/
theorem mergeLetters_rounding_f64 :
    bigA.IsOrder ["a"] ∧ onesBC.IsOrder ["b", "c"]
      ∧ bigA.Sum = .fin (10 ^ 16) ∧ onesBC.Sum = .fin 2
      ∧ F64.add bigA.Sum onesBC.Sum = .fin (10 ^ 16 + 2)
      ∧ (mergeLetters bigA onesBC ["a"] ["b", "c"]).Sum = .fin (10 ^ 16)
      ∧ (mergeLetters bigA onesBC ["a"] ["b", "c"]).Sum ≠ F64.add bigA.Sum onesBC.Sum := by
  refine ⟨by decide, by decide, by decide!, by decide!, by decide!, by decide!, by decide!⟩

/-- C11, refuted as stated: with `-voweldistr a:Inf` the vowels have the single
positive-weight item `a`, of weight `+Inf` with `Sum() = +Inf`, next to consonants `b:1`,
the shape `cv` and the count 1; the count, the shape and the consonant `b` are sampled,
but `distrVowels.Pick()` never returns, so no raw name is built whatever the number of
passes. -/
theorem generate_inf_weight_f64 :
    exampleInf.distrVowels.p.keys = {"a"}
      ∧ exampleInf.distrVowels.Weight "a" = .posInf
      ∧ exampleInf.distrVowels.Sum = .posInf
      ∧ pickAt halfRand exampleInf.distrConsonants 1 2 = some ("b", 3)
      ∧ ¬ ∃ passes, generate exampleInf halfRand passes 0 ≠ .looping := by
  refine ⟨by decide, by decide!, by decide!, by decide!, ?_⟩
  rintro ⟨passes, h⟩
  apply h
  cases passes with
  | zero => rfl
  | succ p =>
    have h1 : pickAt halfRand exampleInf.distrNumSyllales (p + 1) 0 = some ("1", 0 + 1) :=
      pickAt_of_some_f64 (by decide!) p
    have h2 : pickAt halfRand exampleInf.distrSyllables (p + 1) (0 + 1)
        = some ("cv", 0 + 1 + 1) := pickAt_of_some_f64 (by decide!) p
    have h3 : pickAt halfRand exampleInf.distrConsonants (p + 1) (0 + 1 + 1)
        = some ("b", 0 + 1 + 1 + 1) := pickAt_of_some_f64 (by decide!) p
    have h0 : exampleInf.distrVowels.pickOnce
        (exampleInf.distrVowels.p.keys.sort (· ≤ ·)) (1 / 2) = none := by decide!
    have h4 : pickAt halfRand exampleInf.distrVowels (p + 1) (0 + 1 + 1 + 1) = none :=
      pickAt_none_f64 halfRand exampleInf.distrVowels (fun _ => h0) _ _
    have h5 : Distr.intIndex exampleInf.strIntCache "1" = 1 := by decide
    have h6 : (1 : ℤ).toNat = 0 + 1 := rfl
    have h7 : "cv".data = ['c', 'v'] := rfl
    have h8 : letterClass exampleInf 'c' = some exampleInf.distrConsonants := rfl
    have h9 : letterClass exampleInf 'v' = some exampleInf.distrVowels := rfl
    simp only [generate, h1, h5, h6, writeSyllables, h2, h7, writeSyllable, h8, h3, h9, h4]

/-- C15, refuted as stated: after `Add("a", 0)` the map holds the key `a` with the stored
weight 0, which is not strictly positive; and after `Add("a", NaN)` it holds `a` with the
stored weight `NaN`, since `math.Max(NaN, 0)` is `NaN`, which is neither positive nor
`≥ 0`. -/
theorem stored_weight_zero_or_nan_f64 :
    ("a" ∈ (run [.add "a" (.fin 0)] NewStrDistr).p
        ∧ (run [.add "a" (.fin 0)] NewStrDistr).Weight "a" = .fin 0
        ∧ ¬ ((run [.add "a" (.fin 0)] NewStrDistr).Weight "a").gtZero)
      ∧ ("a" ∈ (run [.add "a" .nan] NewStrDistr).p
        ∧ (run [.add "a" .nan] NewStrDistr).Weight "a" = .nan
        ∧ ¬ ((run [.add "a" .nan] NewStrDistr).Weight "a").geZero) := by
  refine ⟨⟨by decide, by decide!, by decide!⟩, ⟨by decide, by decide!, by decide!⟩⟩

/-- C15, amended: in every state reached from `NewStrDistr()` by a finite sequence of `Add`
and `Remove` calls in which no `Add` is given the weight `NaN`, every weight stored in the
map is `≥ 0` (a key added with a weight `≤ 0` is stored with weight 0, it is not left
out).  This holds in float64, rounding and `+Inf` included. -/
theorem stored_weights_geZero_f64 (calls : List Call)
    (hnan : ∀ s, Call.add s .nan ∉ calls) :
    ∀ k, ((run calls NewStrDistr).Weight k).geZero :=
  fun k => run_geZero_f64 calls hnan NewStrDistr
    (fun t => by
      have h : index NewStrDistr.p t = .fin 0 := by simp [index, NewStrDistr]
      rw [h]; exact le_refl (0 : ℚ)) k

/-- Witness of the amended C15: after `Add("a", 0)`, `Add("b", 3)`, `Remove("b")` and
`Add("c", +Inf)` every stored weight is `≥ 0`. -/
theorem stored_weights_geZero_f64_witness :
    (∀ s, Call.add s .nan ∉
        [Call.add "a" (.fin 0), .add "b" (.fin 3), .remove "b", .add "c" .posInf])
      ∧ ∀ k, ((run [.add "a" (.fin 0), .add "b" (.fin 3), .remove "b", .add "c" .posInf]
        NewStrDistr).Weight k).geZero := by
  have hnan : ∀ s, Call.add s .nan ∉
      [Call.add "a" (.fin 0), .add "b" (.fin 3), .remove "b", .add "c" .posInf] := by
    intro s hm
    simp at hm
  exact ⟨hnan, stored_weights_geZero_f64 _ hnan⟩

end Binary64
